import Mathlib

set_option maxRecDepth 8000

/-!
Verification of the flipperirfile codec (src/lib.go).

The Go source is shallowly embedded over lists of characters:

* byte slices and strings become lists of characters;
* uint32 becomes a natural number (bounds stated explicitly where they matter);
* Go int becomes an unbounded integer, with strconv's 64-bit range checks
  kept explicit in the parsing functions;
* float64 (only the duty_cycle field) becomes GoFloat: a finite rational,
  an infinity, or NaN. strconv.ParseFloat is modelled on its full ASCII
  input language — the special values, decimal and hexadecimal mantissas
  with Go's underscore rules and clamped exponents, and the overflow range
  error at 2^1024 - 2^970 — so that its error set matches the program's;
  the finite value carried is the exact rational of the literal (rounding
  to the nearest float64, and the sign of a zero, are the remaining
  abstractions). fmt's %.6f rounds the exact value to six decimal places
  with ties to even, as strconv's fixed-precision decimal rounding does on
  the exact value of a binary float;
* fallible operations return Option / Except; the error values keep the
  structured data of the Go error messages (which field failed and the
  0-based index that the source's range loop supplies to the format string).

Every definition up to Marshal mirrors a function or statement of
src/lib.go; the definitions after it (normalization, well-formedness,
per-line error predicates) are spec-side comparators used to state claims.
-/

namespace FlipperIR

/-- Decidable equality of Except values, for evaluating the codec on
concrete inputs. -/
instance {ε α : Type} [DecidableEq ε] [DecidableEq α] : DecidableEq (Except ε α) := fun x y =>
  match x, y with
  | .ok a, .ok b =>
    if h : a = b then .isTrue (congrArg Except.ok h)
    else .isFalse fun hh => h (Except.ok.inj hh)
  | .error a, .error b =>
    if h : a = b then .isTrue (congrArg Except.error h)
    else .isFalse fun hh => h (Except.error.inj hh)
  | .ok _, .error _ => .isFalse fun hh => Except.noConfusion hh
  | .error _, .ok _ => .isFalse fun hh => Except.noConfusion hh

/-- Whitespace test matching unicode.IsSpace on the ASCII range, as used by
bytes.TrimSpace and strings.Fields in the source. -/
def isWS (c : Char) : Bool :=
  c == ' ' || c == '\t' || c == '\n' || c == '\x0b' || c == '\x0c' || c == '\r'

/-- Leading-whitespace trim (the left half of bytes.TrimSpace). -/
def trimL (l : List Char) : List Char := l.dropWhile isWS

/-- Trailing-whitespace trim (the right half of bytes.TrimSpace). -/
def trimR (l : List Char) : List Char := (l.reverse.dropWhile isWS).reverse

/-- bytes.TrimSpace: drop leading and trailing whitespace. -/
def trim (l : List Char) : List Char := trimR (trimL l)

/-- bytes.Split with a one-character separator: the pieces between
occurrences of the separator, keeping empty pieces, one piece more than
there are separators. -/
def splitOnChar (sep : Char) : List Char → List (List Char)
  | [] => [[]]
  | c :: cs =>
    if c == sep then [] :: splitOnChar sep cs
    else (splitOnChar sep cs).modifyHead (fun t => c :: t)

/-- Accumulator loop for strings.Fields: acc holds the current word,
reversed. -/
def fieldsAux : List Char → List Char → List (List Char)
  | acc, [] => if acc.isEmpty then [] else [acc.reverse]
  | acc, c :: cs =>
    if isWS c then
      if acc.isEmpty then fieldsAux [] cs else acc.reverse :: fieldsAux [] cs
    else fieldsAux (c :: acc) cs

/-- strings.Fields: the maximal whitespace-free words of the input, in
order. -/
def fields (l : List Char) : List (List Char) := fieldsAux [] l

/-- bytes.SplitN(line, ":", 2), packaged as an Option: some (before, after)
around the first colon, none when the line has no colon (the source then
sees a 1-element split and skips the line). -/
def splitKV (l : List Char) : Option (List Char × List Char) :=
  if l.contains ':' then
    some (l.takeWhile (fun c => !(c == ':')), (l.dropWhile (fun c => !(c == ':'))).tail)
  else none

/-! ### Numeric primitives (strconv) -/

/-- Value of one hexadecimal digit, as accepted by strconv.ParseUint with
base 16: 0-9, a-f, A-F. -/
def hexDigitVal? (c : Char) : Option Nat :=
  if '0' ≤ c ∧ c ≤ '9' then some (c.toNat - 48)
  else if 'a' ≤ c ∧ c ≤ 'f' then some (c.toNat - 87)
  else if 'A' ≤ c ∧ c ≤ 'F' then some (c.toNat - 55)
  else none

/-- Digit-accumulation loop of strconv.ParseUint in base 16. -/
def hexValAux? (acc : Nat) : List Char → Option Nat
  | [] => some acc
  | c :: cs =>
    match hexDigitVal? c with
    | some d => hexValAux? (16 * acc + d) cs
    | none => none

/-- strconv.ParseUint(tok, 16, 8): hexadecimal digits only, nonempty, and
the value must fit in one byte. (ParseUint reports overflow as soon as the
accumulator passes the bound; over naturals the final comparison gives the
same verdict.) -/
def parseHexByte? (t : List Char) : Option Nat :=
  if t.isEmpty then none
  else
    match hexValAux? 0 t with
    | some v => if v ≤ 255 then some v else none
    | none => none

/-- Value of one decimal digit, as accepted by strconv.ParseInt base 10. -/
def digitVal? (c : Char) : Option Nat :=
  if '0' ≤ c ∧ c ≤ '9' then some (c.toNat - 48) else none

/-- Digit-accumulation loop of strconv.ParseInt in base 10. -/
def decValAux? (acc : Nat) : List Char → Option Nat
  | [] => some acc
  | c :: cs =>
    match digitVal? c with
    | some d => decValAux? (10 * acc + d) cs
    | none => none

/-- Unsigned decimal digits: nonempty, digits only. -/
def parseDecNat? (t : List Char) : Option Nat :=
  if t.isEmpty then none else decValAux? 0 t

/-- strconv.Atoi = strconv.ParseInt(s, 10, 0) on a 64-bit platform:
optional single sign, then decimal digits, value within the signed 64-bit
range. -/
def goAtoi? (t : List Char) : Option Int :=
  match t with
  | [] => none
  | c :: rest =>
    if c == '+' then
      (parseDecNat? rest).bind fun n =>
        if (n : Int) ≤ 2 ^ 63 - 1 then some (n : Int) else none
    else if c == '-' then
      (parseDecNat? rest).bind fun n =>
        if (n : Int) ≤ 2 ^ 63 then some (-(n : Int)) else none
    else
      (parseDecNat? (c :: rest)).bind fun n =>
        if (n : Int) ≤ 2 ^ 63 - 1 then some (n : Int) else none

/-- Decimal value of an all-digit word (total helper; junk digits count 0,
callers only use it on digit words). -/
def decVal (l : List Char) : Nat := (decValAux? 0 l).getD 0

/-! ### strconv.ParseFloat -/

/-- The values strconv.ParseFloat(s, 64) can deliver: a finite number,
one of the two infinities, or NaN. The finite case carries the exact
rational value of the literal; the rounding to the nearest float64 (and
the sign of a zero) is the one abstraction of this model — the error
behavior, including the overflow range error, is modelled exactly. -/
inductive GoFloat where
  | finite (q : ℚ)
  | posInf
  | negInf
  | nan
deriving DecidableEq

/-- strconv's lower on the comparisons the parser makes: case-fold an
ASCII capital letter. (The source's bitwise c | 0x20 agrees with this on
every comparison performed, all of which are against lowercase letters or
digits.) -/
def lowerL (c : Char) : Char :=
  if 'A' ≤ c ∧ c ≤ 'Z' then Char.ofNat (c.toNat + 32) else c

/-- A decimal digit, as readFloat classifies bytes. -/
def isDigitC (c : Char) : Bool := (digitVal? c).isSome

/-- A byte readFloat's decimal mantissa loop consumes: digit or
underscore (the dot is handled separately, once). -/
def isDU (c : Char) : Bool := isDigitC c || c == '_'

/-- A hexadecimal digit. -/
def isHexD (c : Char) : Bool := (hexDigitVal? c).isSome

/-- A byte the hexadecimal mantissa loop consumes. -/
def isHDU (c : Char) : Bool := isHexD c || c == '_'

/-- Case-insensitive whole-string match against inf/infinity. -/
def infIC (s : List Char) : Bool :=
  s.map lowerL == "inf".toList || s.map lowerL == "infinity".toList

/-- strconv's special(): an optionally signed inf or infinity, or an
unsigned nan, case-insensitively. special itself matches a prefix, but a
match shorter than the whole string makes ParseFloat fail on the
leftover, so whole-string equality is exactly the accepted set (the sign
falls through only to the infinity case, as in the source's switch). -/
def specialFloat? (s : List Char) : Option GoFloat :=
  match s with
  | [] => none
  | c :: rest =>
    if c == '+' then (if infIC rest then some GoFloat.posInf else none)
    else if c == '-' then (if infIC rest then some GoFloat.negInf else none)
    else if infIC s then some GoFloat.posInf
    else if s.map lowerL == "nan".toList then some GoFloat.nan
    else none

/-- readFloat's exponent accumulation e = e*10 + d, applied only while
e < 10000: e saturates, which classifies the result identically (a
saturated exponent is already deep overflow or underflow). -/
def expClamp : Nat → List Char → Nat
  | e, [] => e
  | e, c :: rest => expClamp (if e < 10000 then e * 10 + (c.toNat - 48) else e) rest

/-- strconv's underscoreOK loop: saw is ^ at the start (or after the base
prefix of value 0), 0 after a digit, _ after an underscore, ! after
anything else; each underscore must follow a digit (or the base prefix)
and be followed by a digit. -/
def uOKLoop (hex : Bool) : Char → List Char → Bool
  | saw, [] => !(saw == '_')
  | saw, c :: rest =>
    if isDigitC c || (hex && isHexD c) then uOKLoop hex '0' rest
    else if c == '_' then (if saw == '0' then uOKLoop hex '_' rest else false)
    else if saw == '_' then false
    else uOKLoop hex '!' rest

/-- underscoreOK after the optional sign: an optional 0b/0o/0x base
prefix counts as a digit, then the loop. -/
def underscoreOKBody (s : List Char) : Bool :=
  match s with
  | c0 :: x :: rest =>
    if c0 == '0' ∧ (lowerL x == 'b' || lowerL x == 'o' || lowerL x == 'x') then
      uOKLoop (lowerL x == 'x') '0' rest
    else uOKLoop false '^' s
  | _ => uOKLoop false '^' s

/-- strconv's underscoreOK on the whole consumed string. -/
def underscoreOK (s : List Char) : Bool :=
  match s with
  | c :: rest =>
    if c == '+' || c == '-' then underscoreOKBody rest else underscoreOKBody s
  | [] => underscoreOKBody s

/-- The float64 overflow boundary: an exact value of magnitude at least
2^1024 - 2^970 rounds to infinity, on which ParseFloat returns ErrRange
(a non-nil error); underflow to zero carries no error. -/
def fBound : Nat := 2 ^ 1024 - 2 ^ 970

/-- Package sign, numerator magnitude and denominator as a finite parse
result, or none when the magnitude reaches the overflow range. -/
def mkFinite? (neg : Bool) (numAbs den : Nat) : Option GoFloat :=
  if fBound * den ≤ numAbs then none
  else some (GoFloat.finite (mkRat (if neg then -(numAbs : Int) else (numAbs : Int)) den))

/-- Shared tail of the decimal path: Go's underscore legality check on
the consumed string (here always the whole input), then the value
mant * 10^(±e) / 10^f. -/
def decFinish (neg : Bool) (mant f : Nat) (eneg : Bool) (e : Nat)
    (whole : List Char) : Option GoFloat :=
  if whole.contains '_' && !underscoreOK whole then none
  else if eneg then mkFinite? neg mant (10 ^ (f + e))
  else mkFinite? neg (mant * 10 ^ e) (10 ^ f)

/-- Exponent digits after the e/p byte and optional sign: readFloat
requires a decimal digit first, then consumes digits and underscores,
which must reach the end of the string. -/
def parseExpDigits (eneg : Bool) (t : List Char) : Option (Bool × Nat) :=
  match t with
  | c :: _ =>
    if isDigitC c then
      if (t.dropWhile isDU).isEmpty then
        some (eneg, expClamp 0 ((t.takeWhile isDU).filter isDigitC))
      else none
    else none
  | [] => none

/-- Exponent part after the e/p byte: optional sign, then digits. -/
def parseExpPart (t : List Char) : Option (Bool × Nat) :=
  match t with
  | [] => none
  | c :: r =>
    if c == '+' then parseExpDigits false r
    else if c == '-' then parseExpDigits true r
    else parseExpDigits false (c :: r)

/-- The decimal branch of readFloat: mantissa digits and underscores
around at most one dot (a second dot, or any other byte, ends the
mantissa), at least one digit, an optional e-exponent, end of input. The
mantissa value is the digit word with underscores stripped; f counts the
fractional digits. -/
def decPath (neg : Bool) (t whole : List Char) : Option GoFloat :=
  let seg1 := t.takeWhile isDU
  let r1 := t.dropWhile isDU
  let seg2 := if r1.head? == some '.' then r1.tail.takeWhile isDU else []
  let rest := if r1.head? == some '.' then r1.tail.dropWhile isDU else r1
  let d1 := seg1.filter isDigitC
  let d2 := seg2.filter isDigitC
  if d1.isEmpty && d2.isEmpty then none
  else
    match rest with
    | [] => decFinish neg (decVal (d1 ++ d2)) d2.length false 0 whole
    | c :: restE =>
      if lowerL c == 'e' then
        match parseExpPart restE with
        | some (eneg, e) => decFinish neg (decVal (d1 ++ d2)) d2.length eneg e whole
        | none => none
      else none

/-- The hexadecimal branch (after the 0x prefix): hex mantissa around at
most one dot, at least one digit, a required p-exponent, end of input;
the value is mant * 2^(±e) / 16^f. -/
def hexPath (neg : Bool) (t whole : List Char) : Option GoFloat :=
  let seg1 := t.takeWhile isHDU
  let r1 := t.dropWhile isHDU
  let seg2 := if r1.head? == some '.' then r1.tail.takeWhile isHDU else []
  let rest := if r1.head? == some '.' then r1.tail.dropWhile isHDU else r1
  let d1 := seg1.filter isHexD
  let d2 := seg2.filter isHexD
  if d1.isEmpty && d2.isEmpty then none
  else
    match rest with
    | c :: restE =>
      if lowerL c == 'p' then
        match parseExpPart restE with
        | some (eneg, e) =>
          if whole.contains '_' && !underscoreOK whole then none
          else if eneg then
            mkFinite? neg ((hexValAux? 0 (d1 ++ d2)).getD 0) (16 ^ d2.length * 2 ^ e)
          else mkFinite? neg ((hexValAux? 0 (d1 ++ d2)).getD 0 * 2 ^ e) (16 ^ d2.length)
        | none => none
      else none
    | [] => none

/-- After the sign: readFloat switches to hexadecimal exactly when a 0x
or 0X prefix is followed by at least one more byte. -/
def floatAfterSign (neg : Bool) (t whole : List Char) : Option GoFloat :=
  match t with
  | c0 :: x :: rest =>
    if c0 == '0' && ((lowerL x == 'x') && !rest.isEmpty) then hexPath neg rest whole
    else decPath neg t whole
  | _ => decPath neg t whole

/-- strconv.ParseFloat(value, 64) as Unmarshal calls it: the special
values, then sign and the decimal or hexadecimal readFloat syntax with
Go's underscore rules and clamped exponent, requiring the whole string;
none is a non-nil error (syntax error or the overflow range error). -/
def parseFloat? (t : List Char) : Option GoFloat :=
  match specialFloat? t with
  | some f => some f
  | none =>
    match t with
    | [] => none
    | c :: r =>
      if c == '-' then floatAfterSign true r t
      else if c == '+' then floatAfterSign false r t
      else floatAfterSign false (c :: r) t

/-! ### Formatting primitives (fmt) -/

/-- Decimal digit characters of a natural number, most significant first;
the fuel argument only bounds the recursion and any fuel at least n works. -/
def natDecDigitsAux : Nat → Nat → List Char
  | 0, _ => []
  | _ + 1, 0 => []
  | fuel + 1, n + 1 =>
    natDecDigitsAux fuel ((n + 1) / 10) ++ [Char.ofNat (48 + (n + 1) % 10)]

/-- Decimal rendering of a natural number, as fmt's %d produces. -/
def natDecDigits (n : Nat) : List Char :=
  if n = 0 then ['0'] else natDecDigitsAux n n

/-- fmt %d of a (signed) integer. -/
def intStr (i : Int) : List Char :=
  if i < 0 then '-' :: natDecDigits i.natAbs else natDecDigits i.toNat

/-- Round |q| * 10^6 to the nearest integer, ties to even: the rounding
strconv's fixed-precision decimal conversion applies to the exact value of
the float argument of %.6f. |q| * 10^6 is the fraction
(q.num.natAbs * 10^6) / q.den; its integer part, remainder and parity
decide the rounding. -/
def round6 (q : ℚ) : Nat :=
  if 2 * (q.num.natAbs * 1000000 % q.den) < q.den then
    q.num.natAbs * 1000000 / q.den
  else if q.den < 2 * (q.num.natAbs * 1000000 % q.den) then
    q.num.natAbs * 1000000 / q.den + 1
  else if (q.num.natAbs * 1000000 / q.den) % 2 = 0 then
    q.num.natAbs * 1000000 / q.den
  else q.num.natAbs * 1000000 / q.den + 1

/-- Left-pad a digit word with zeros to six characters. -/
def padSix (l : List Char) : List Char := List.replicate (6 - l.length) '0' ++ l

/-- fmt %.6f: sign of the value, integer part, point, exactly six
fractional digits. -/
def formatF6 (q : ℚ) : List Char :=
  (if q < 0 then ['-'] else []) ++
    natDecDigits (round6 q / 1000000) ++ '.' :: padSix (natDecDigits (round6 q % 1000000))

/-- fmt %.6f on a full float64 value: the fixed-point rendering for finite
values, and fmt's +Inf / -Inf / NaN for the specials. -/
def formatF6G : GoFloat → List Char
  | GoFloat.finite q => formatF6 q
  | GoFloat.posInf => "+Inf".toList
  | GoFloat.negInf => "-Inf".toList
  | GoFloat.nan => "NaN".toList

/-! ### The integer codec (leHexToUint32 / encodeLEUint32Hex) -/

/-- leHexToUint32: split on whitespace, require exactly 4 tokens, parse
each as a hexadecimal byte, combine little-endian (token 0 least
significant). The source accumulates with result |= b << (8*i); over
disjoint byte positions that bitwise or is this sum. -/
def leHexToUint32? (s : List Char) : Option Nat :=
  match fields s with
  | [t0, t1, t2, t3] =>
    match parseHexByte? t0, parseHexByte? t1, parseHexByte? t2, parseHexByte? t3 with
    | some b0, some b1, some b2, some b3 =>
      some (b0 + b1 * 256 + b2 * 65536 + b3 * 16777216)
    | _, _, _, _ => none
  | _ => none

/-- Uppercase hexadecimal digit characters. -/
def hexChar (n : Nat) : Char := "0123456789ABCDEF".toList.getD n '0'

/-- fmt %02X of one byte value. -/
def hex2 (b : Nat) : List Char := [hexChar (b / 16), hexChar (b % 16)]

/-- encodeLEUint32Hex: %02X %02X %02X %02X of bytes 0 (least significant)
through 3; byte(val >> 8k) is val / 2^(8k) % 256. -/
def encodeLEUint32Hex (v : Nat) : List Char :=
  hex2 (v % 256) ++ ' ' :: hex2 (v / 256 % 256) ++ ' ' ::
    hex2 (v / 65536 % 256) ++ ' ' :: hex2 (v / 16777216 % 256)

/-! ### Data model -/

/-- The Signal struct; zero values as in Go. -/
structure Signal where
  name : List Char := []
  type : List Char := []
  protocol : List Char := []
  address : Nat := 0
  command : Nat := 0
  frequency : Int := 0
  dutyCycle : GoFloat := GoFloat.finite 0
  data : List Int := []
deriving DecidableEq

/-- The SignalLib struct. -/
structure SignalLib where
  filetype : List Char := []
  version : List Char := []
  signals : List Signal := []
deriving DecidableEq

/-- Structured content of the parse errors the source formats with
fmt.Errorf: which key failed and the line index the range loop supplied. -/
structure ParseErr where
  key : List Char
  line : Nat
deriving DecidableEq

/-- Parser state inside Unmarshal's line loop: the two header fields of
lib, the record being accumulated, and the flushed records. -/
structure PState where
  filetype : List Char
  version : List Char
  curr : Signal
  signals : List Signal
deriving DecidableEq

def ftTag : List Char := "Filetype:".toList
def verTag : List Char := "Version:".toList

/-- The key/value switch of Unmarshal's loop body, on the two halves of the
first-colon split (Go's key := TrimSpace(parts[0]), value :=
TrimSpace(parts[1]) are inlined as trim k / trim v). -/
def stepKV (st : PState) (lineno : Nat) (k v : List Char) : Except ParseErr PState :=
  if trim k == "name".toList then .ok { st with curr.name := trim v }
  else if trim k == "type".toList then .ok { st with curr.type := trim v }
  else if trim k == "protocol".toList then .ok { st with curr.protocol := trim v }
  else if trim k == "address".toList then
    match leHexToUint32? (trim v) with
    | some a => .ok { st with curr.address := a }
    | none => .error ⟨"address".toList, lineno⟩
  else if trim k == "command".toList then
    match leHexToUint32? (trim v) with
    | some a => .ok { st with curr.command := a }
    | none => .error ⟨"command".toList, lineno⟩
  else if trim k == "frequency".toList then
    match goAtoi? (trim v) with
    | some f => .ok { st with curr.frequency := f }
    | none => .error ⟨"frequency".toList, lineno⟩
  else if trim k == "duty_cycle".toList then
    match parseFloat? (trim v) with
    | some q => .ok { st with curr.dutyCycle := q }
    | none => .error ⟨"duty_cycle".toList, lineno⟩
  else if trim k == "data".toList then
    match (fields (trim v)).mapM goAtoi? with
    | some xs => .ok { st with curr.data := xs }
    | none => .error ⟨"data".toList, lineno⟩
  else .ok st

/-- One iteration of Unmarshal's line loop. -/
def step (st : PState) (lineno : Nat) (raw : List Char) : Except ParseErr PState :=
  let line := trim raw
  if line.isEmpty then .ok st
  else if st.filetype.isEmpty && ftTag.isPrefixOf line then
    .ok { st with filetype := trim (line.drop ftTag.length) }
  else if st.version.isEmpty && verTag.isPrefixOf line then
    .ok { st with version := trim (line.drop verTag.length) }
  else if line == ['#'] then
    if !st.curr.name.isEmpty then
      .ok { st with signals := st.signals ++ [st.curr], curr := {} }
    else .ok st
  else
    match splitKV line with
    | none => .ok st
    | some (k, v) => stepKV st lineno k v

/-- The line loop over (index, line) pairs. -/
def runLines : PState → List (Nat × List Char) → Except ParseErr PState
  | st, [] => .ok st
  | st, (n, l) :: rest =>
    match step st n l with
    | .ok st' => runLines st' rest
    | .error e => .error e

/-- End-of-input flush: a still-accumulating record (nonempty name) becomes
the final signal. -/
def finish (st : PState) : SignalLib :=
  ⟨st.filetype, st.version,
    if !st.curr.name.isEmpty then st.signals ++ [st.curr] else st.signals⟩

/-- Unmarshal: split on newlines, run the line loop from the zero state
over the 0-based enumeration (Go's range), flush the trailing record. -/
def Unmarshal (s : List Char) : Except ParseErr SignalLib :=
  match runLines ⟨[], [], {}, []⟩ ((splitOnChar '\n' s).enum) with
  | .ok st => .ok (finish st)
  | .error e => .error e

/-- Per-signal output of Marshal: delimiter, name, type, then the fields
selected by exact match of the type tag. -/
def signalChunk (s : Signal) : List Char :=
  "#\n".toList ++ "name: ".toList ++ s.name ++ ['\n'] ++
    "type: ".toList ++ s.type ++ ['\n'] ++
    (if s.type == "parsed".toList then
      "protocol: ".toList ++ s.protocol ++ ['\n'] ++
        "address: ".toList ++ encodeLEUint32Hex s.address ++ ['\n'] ++
        "command: ".toList ++ encodeLEUint32Hex s.command ++ ['\n']
    else if s.type == "raw".toList then
      "frequency: ".toList ++ intStr s.frequency ++ ['\n'] ++
        "duty_cycle: ".toList ++ formatF6G s.dutyCycle ++ ['\n'] ++
        "data:".toList ++ s.data.foldl (fun acc v => acc ++ ' ' :: intStr v) [] ++ ['\n']
    else [])

/-- Marshal: header lines then the signal chunks, appended to a buffer in
order; the Go function returns its buffer with a nil error. -/
def Marshal (l : SignalLib) : List Char × Option ParseErr :=
  (l.signals.foldl (fun buf s => buf ++ signalChunk s)
    ("Filetype: ".toList ++ l.filetype ++ ['\n'] ++
      "Version: ".toList ++ l.version ++ ['\n']), none)

/-! ## Spec-side comparator definitions -/

/-- Pure hexadecimal value of a digit word (claim-side companion of the
Option-valued accumulation loop). -/
def hexVal (l : List Char) : Nat := (hexValAux? 0 l).getD 0

/-- The claim's notion of a valid hex-byte token: nonempty, hexadecimal
digits only, value within one byte. -/
def HexTokOK (t : List Char) : Prop :=
  t ≠ [] ∧ (∀ c ∈ t, (hexDigitVal? c).isSome) ∧ hexVal t ≤ 255

instance (t : List Char) : Decidable (HexTokOK t) := by unfold HexTokOK; infer_instance

/-- The claim's notion of a well-formed 4-token hex string. -/
def Hex4OK (s : List Char) : Prop :=
  (fields s).length = 4 ∧ ∀ t ∈ fields s, HexTokOK t

instance (s : List Char) : Decidable (Hex4OK s) := by unfold Hex4OK; infer_instance

/-- Normalization of a well-formed hex string, as the claim describes it:
each whitespace token rendered as an upper-case zero-padded 2-digit byte,
joined by single spaces. -/
def normalizeHex (s : List Char) : List Char :=
  List.intercalate [' '] ((fields s).map fun t => hex2 (hexVal t))

/-- A string field value that survives the line codec: no surrounding
whitespace (bytes.TrimSpace leaves it unchanged) and no newline. -/
def CleanStr (v : List Char) : Prop := trim v = v ∧ '\n' ∉ v

instance (v : List Char) : Decidable (CleanStr v) := by unfold CleanStr; infer_instance

/-- The signed 64-bit range of Go's int on the platforms strconv.Atoi
targets here. -/
def Int64Ok (i : Int) : Prop := -(2 ^ 63) ≤ i ∧ i < 2 ^ 63

instance (i : Int) : Decidable (Int64Ok i) := by unfold Int64Ok; infer_instance

/-- Well-formedness of one signal exactly as claim C1 words it: non-empty
name, a recognized kind tag, header/string fields free of newlines and
surrounding whitespace — plus the representability bounds of the Go field
types (uint32 addresses, 64-bit ints). -/
def OrigSignalWF (s : Signal) : Prop :=
  s.name ≠ [] ∧ CleanStr s.name ∧ CleanStr s.protocol ∧
    (s.type = "parsed".toList ∨ s.type = "raw".toList) ∧
    s.address < 2 ^ 32 ∧ s.command < 2 ^ 32 ∧ Int64Ok s.frequency ∧
    ∀ x ∈ s.data, Int64Ok x

instance (s : Signal) : Decidable (OrigSignalWF s) := by unfold OrigSignalWF; infer_instance

/-- Library well-formedness as claim C1 words it. -/
def OrigWF (L : SignalLib) : Prop :=
  CleanStr L.filetype ∧ CleanStr L.version ∧ ∀ s ∈ L.signals, OrigSignalWF s

instance (L : SignalLib) : Decidable (OrigWF L) := by unfold OrigWF; infer_instance

/-- A duty cycle that survives the %.6f line: a finite value exactly
representable in six decimal places (denominator dividing 10^6) and
within the float64 domain (magnitude below the overflow boundary, as any
value an actual float64 field can hold is). -/
def dutySixOk : GoFloat → Prop
  | GoFloat.finite q => q.den ∣ 1000000 ∧ q.num.natAbs < fBound * q.den
  | _ => False

instance (f : GoFloat) : Decidable (dutySixOk f) := by
  cases f with
  | finite q =>
    exact inferInstanceAs (Decidable (q.den ∣ 1000000 ∧ q.num.natAbs < fBound * q.den))
  | posInf => exact isFalse fun hf => hf
  | negInf => exact isFalse fun hf => hf
  | nan => exact isFalse fun hf => hf

/-- The amendment the round-trip counterexample forces on claim C1: the
fields of the kind that is not selected are at their zero values (Marshal
never emits them, so Unmarshal leaves them zero), and a raw signal's duty
cycle is a finite value exactly representable in the six decimal places
%.6f prints, within the float64 domain. -/
def SignalRT (s : Signal) : Prop :=
  OrigSignalWF s ∧
    (s.type = "parsed".toList →
      s.frequency = 0 ∧ s.dutyCycle = GoFloat.finite 0 ∧ s.data = []) ∧
    (s.type = "raw".toList →
      s.protocol = [] ∧ s.address = 0 ∧ s.command = 0 ∧ dutySixOk s.dutyCycle)

instance (s : Signal) : Decidable (SignalRT s) := by unfold SignalRT; infer_instance

/-- Amended library well-formedness for the round-trip claim. -/
def LibRT (L : SignalLib) : Prop :=
  CleanStr L.filetype ∧ CleanStr L.version ∧ ∀ s ∈ L.signals, SignalRT s

instance (L : SignalLib) : Decidable (LibRT L) := by unfold LibRT; infer_instance

/-- Badness of one key/value pair: the key is one of the five numeric keys
and the corresponding decoder rejects the value. -/
def lineBadKV (k v : List Char) : Bool :=
  if trim k == "address".toList || trim k == "command".toList then
    !(leHexToUint32? (trim v)).isSome
  else if trim k == "frequency".toList then !(goAtoi? (trim v)).isSome
  else if trim k == "duty_cycle".toList then !(parseFloat? (trim v)).isSome
  else if trim k == "data".toList then !((fields (trim v)).mapM goAtoi?).isSome
  else false

/-- A line is bad when its first-colon key is one of the five numeric keys
and the corresponding decoder rejects its value; this predicate is
state-free and mirrors the switch in Unmarshal. -/
def lineBad (raw : List Char) : Bool :=
  match splitKV (trim raw) with
  | none => false
  | some (k, v) => lineBadKV k v

/-- Value a Filetype: line offers to the emptiness-guarded capture: its
trimmed remainder when that is nonempty. -/
def ftValOf (raw : List Char) : Option (List Char) :=
  let l := trim raw
  if ftTag.isPrefixOf l then
    let r := trim (l.drop ftTag.length)
    if r.isEmpty then none else some r
  else none

/-- The first nonempty Filetype: value of the input lines, or empty. -/
def firstFT : List (List Char) → List Char
  | [] => []
  | l :: rest =>
    match ftValOf l with
    | some v => v
    | none => firstFT rest

/-- Line view of serialization: terminate every line with a newline and
concatenate. -/
def joinNL (ls : List (List Char)) : List Char := (ls.map fun l => l ++ ['\n']).flatten

/-- The lines of one signal's chunk. -/
def blockLines (s : Signal) : List (List Char) :=
  [['#'], "name: ".toList ++ s.name, "type: ".toList ++ s.type] ++
    (if s.type == "parsed".toList then
      ["protocol: ".toList ++ s.protocol,
        "address: ".toList ++ encodeLEUint32Hex s.address,
        "command: ".toList ++ encodeLEUint32Hex s.command]
    else if s.type == "raw".toList then
      ["frequency: ".toList ++ intStr s.frequency,
        "duty_cycle: ".toList ++ formatF6G s.dutyCycle,
        "data:".toList ++ s.data.foldl (fun acc v => acc ++ ' ' :: intStr v) []]
    else [])

/-- The lines of a whole library's serialization. -/
def libLines (L : SignalLib) : List (List Char) :=
  ("Filetype: ".toList ++ L.filetype) :: ("Version: ".toList ++ L.version) ::
    (L.signals.map blockLines).flatten

/-! ### Concrete inputs used by individual claims -/

/-- The example input of claim C5, with each line newline-terminated. -/
def ex5 : List Char :=
  ("Filetype: IR signals file\nVersion: 1\n#\nname: Power\ntype: parsed\n" ++
    "protocol: NEC\naddress: 00 00 00 00\ncommand: 15 00 00 00\n").toList

/-- The library value the C5 example denotes. -/
def lib5 : SignalLib :=
  ⟨"IR signals file".toList, "1".toList,
    [{ name := "Power".toList, type := "parsed".toList, protocol := "NEC".toList,
       address := 0, command := 21 }]⟩

/-- An input whose 5th line (1-based) is the malformed address of claim
C3. -/
def ex3 : List Char :=
  ("Filetype: IR signals file\nVersion: 1\n#\nname: A\naddress: ZZ 00 00 00\n").toList

/-- An input whose first Filetype: line carries an empty value and whose
second carries X. -/
def ex6 : List Char := ("Filetype:\nFiletype: X\n").toList

/-- Round-trip counterexample library: a parsed signal carrying a nonzero
raw-kind field (frequency 1), and a raw signal whose duty cycle 2^-23 (an
exactly representable float64) needs more than six decimal places. -/
def libC : SignalLib :=
  ⟨"f".toList, "1".toList,
    [{ name := "A".toList, type := "parsed".toList, protocol := "NEC".toList,
       frequency := 1 },
     { name := "B".toList, type := "raw".toList, frequency := 38000,
       dutyCycle := GoFloat.finite (mkRat 1 8388608), data := [100] }]⟩

/-- Witness library for the amended round-trip: one signal of each kind,
with zero off-kind fields and a duty cycle of exactly 0.25. -/
def libW : SignalLib :=
  ⟨"IR signals file".toList, "1".toList,
    [{ name := "Power".toList, type := "parsed".toList, protocol := "NEC".toList,
       address := 3735928559, command := 21 },
     { name := "Fan".toList, type := "raw".toList, frequency := 38000,
       dutyCycle := GoFloat.finite (mkRat 1 4), data := [100, 200, -300] }]⟩

/-- Input of claim C10 as a function of the data value: a raw record whose
data: line carries the given value. -/
def exD (v : List Char) : List Char :=
  ("Filetype: f\nVersion: 1\n#\nname: a\ntype: raw\nfrequency: 38000\n" ++
    "duty_cycle: 0.500000\ndata:").toList ++ v ++ ['\n']

/-- The library the C10 input denotes: one raw signal with an empty sample
list. -/
def libD : SignalLib :=
  ⟨"f".toList, "1".toList,
    [{ name := "a".toList, type := "raw".toList, frequency := 38000,
       dutyCycle := GoFloat.finite (mkRat 1 2), data := [] }]⟩

end FlipperIR

namespace FlipperIR

/-! ## Character-class and trimming lemmas -/

theorem dropWhile_append_of_all {p : Char → Bool} {a : List Char} (b : List Char)
    (h : ∀ c ∈ a, p c = true) : (a ++ b).dropWhile p = b.dropWhile p := by
  induction a with
  | nil => rfl
  | cons c cs ih =>
    simp only [List.cons_append, List.dropWhile_cons, h c (by simp)]
    exact ih fun x hx => h x (by simp [hx])

theorem takeWhile_append_of_all {p : Char → Bool} {a : List Char} (b : List Char)
    (h : ∀ c ∈ a, p c = true) : (a ++ b).takeWhile p = a ++ b.takeWhile p := by
  induction a with
  | nil => rfl
  | cons c cs ih =>
    simp only [List.cons_append, List.takeWhile_cons, h c (by simp)]
    simp [ih fun x hx => h x (by simp [hx])]

theorem trimL_eq_self_of_trim_eq_self {v : List Char} (h : trim v = v) : trimL v = v := by
  have hsub : List.Sublist (trimL v) v := (List.dropWhile_suffix isWS).sublist
  refine hsub.eq_of_length ?_
  have h1 : (trimL v).length ≤ v.length := hsub.length_le
  have h2 : (trimR (trimL v)).length ≤ (trimL v).length := by
    have hs : List.Sublist ((trimL v).reverse.dropWhile isWS) (trimL v).reverse :=
      (List.dropWhile_suffix isWS).sublist
    have := hs.length_le
    simpa [trimR] using this
  rw [show trimR (trimL v) = v from h] at h2
  omega

theorem trimR_eq_self_of_trim_eq_self {v : List Char} (h : trim v = v) : trimR v = v := by
  have h1 := trimL_eq_self_of_trim_eq_self h
  calc trimR v = trimR (trimL v) := by rw [h1]
    _ = v := h

theorem dropWhile_eq_self_head {p : Char → Bool} {c : Char} {l : List Char}
    (h : (c :: l).dropWhile p = c :: l) : p c = false := by
  by_contra hc
  have hc' : p c = true := by revert hc; cases p c <;> simp
  rw [List.dropWhile_cons, hc'] at h
  have := congrArg List.length h
  have hle : (l.dropWhile p).length ≤ l.length := (List.dropWhile_suffix p).sublist.length_le
  simp at this
  omega

theorem trimR_last_not_ws {v : List Char} (hv : trimR v = v) {c : Char} {u : List Char}
    (he : v = u ++ [c]) : isWS c = false := by
  subst he
  have h1 : ((u ++ [c]).reverse.dropWhile isWS) = (u ++ [c]).reverse := by
    have h0 := congrArg List.reverse hv
    rw [trimR, List.reverse_reverse] at h0
    exact h0
  rw [List.reverse_append, List.reverse_singleton, List.singleton_append] at h1
  exact dropWhile_eq_self_head h1

theorem trimR_append_self {u v : List Char} (hv : trimR v = v) (hne : v ≠ []) :
    trimR (u ++ v) = u ++ v := by
  obtain ⟨w, c, rfl⟩ : ∃ w c, v = w ++ [c] := by
    rcases List.eq_nil_or_concat v with h | ⟨w, c, hc⟩
    · exact absurd h hne
    · exact ⟨w, c, by rw [hc, List.concat_eq_append]⟩
  have hc : isWS c = false := trimR_last_not_ws hv rfl
  unfold trimR
  rw [List.reverse_append, List.reverse_append, List.reverse_singleton,
    List.singleton_append, List.cons_append, List.dropWhile_cons, hc]
  simp

theorem trimR_append_ws {u v : List Char} (hv : ∀ c ∈ v, isWS c = true) :
    trimR (u ++ v) = trimR u := by
  unfold trimR
  rw [List.reverse_append, dropWhile_append_of_all _ (by simp_all)]

theorem trimL_cons_not_ws {c : Char} {l : List Char} (h : isWS c = false) :
    trimL (c :: l) = c :: l := by
  simp [trimL, List.dropWhile_cons, h]

/-- The main line-shape fact: a line made of a non-whitespace-headed
constant part followed by a trimmed nonempty value is itself trimmed. -/
theorem trim_line {k v : List Char} {c : Char} (hk : isWS c = false)
    (hv : trim v = v) (hne : v ≠ []) : trim ((c :: k) ++ v) = (c :: k) ++ v := by
  unfold trim
  rw [show trimL ((c :: k) ++ v) = (c :: k) ++ v from trimL_cons_not_ws hk]
  exact trimR_append_self (trimR_eq_self_of_trim_eq_self hv) hne

theorem trim_space_cons {v : List Char} (hv : trim v = v) : trim (' ' :: v) = v := by
  unfold trim
  rw [show trimL (' ' :: v) = trimL v from by simp [trimL, List.dropWhile_cons, isWS]]
  rw [trimL_eq_self_of_trim_eq_self hv]
  exact trimR_eq_self_of_trim_eq_self hv

/-! ## splitOnChar lemmas -/

theorem splitOnChar_append_sep {a : List Char} (sep : Char) (rest : List Char)
    (h : sep ∉ a) : splitOnChar sep (a ++ sep :: rest) = a :: splitOnChar sep rest := by
  induction a with
  | nil => simp [splitOnChar]
  | cons c cs ih =>
    have hc : (c == sep) = false := by
      simp only [List.mem_cons] at h
      simp [beq_eq_false_iff_ne]
      intro hh; exact h (Or.inl hh.symm)
    simp only [List.cons_append, splitOnChar, hc, Bool.false_eq_true, if_false,
      List.append_eq]
    rw [ih (fun hm => h (List.mem_cons_of_mem c hm))]
    rfl

theorem splitOnChar_no_sep {a : List Char} (sep : Char) (h : sep ∉ a) :
    splitOnChar sep a = [a] := by
  induction a with
  | nil => rfl
  | cons c cs ih =>
    have hc : (c == sep) = false := by
      simp only [List.mem_cons] at h
      simp [beq_eq_false_iff_ne]
      intro hh; exact h (Or.inl hh.symm)
    simp only [splitOnChar, hc, Bool.false_eq_true, if_false, List.append_eq]
    rw [ih (fun hm => h (List.mem_cons_of_mem c hm))]
    rfl

/-! ## fields lemmas -/

theorem fieldsAux_word {w : List Char} (hw : ∀ c ∈ w, isWS c = false) :
    ∀ acc l, fieldsAux acc (w ++ l) = fieldsAux (w.reverse ++ acc) l := by
  induction w with
  | nil => simp
  | cons c cs ih =>
    intro acc l
    simp only [List.cons_append, fieldsAux, hw c (by simp), Bool.false_eq_true, if_false,
      List.append_eq]
    rw [ih (fun x hx => hw x (by simp [hx])) (c :: acc) l]
    simp

theorem fields_word_append {w rest : List Char} (hne : w ≠ [])
    (hw : ∀ c ∈ w, isWS c = false) :
    fields (w ++ ' ' :: rest) = w :: fields rest := by
  unfold fields
  rw [fieldsAux_word hw [] (' ' :: rest)]
  have : (w.reverse ++ []).isEmpty = false := by
    simp [List.isEmpty_iff, hne]
  simp only [fieldsAux, show isWS ' ' = true from rfl, if_true, this, Bool.false_eq_true,
    if_false]
  simp

theorem fields_word {w : List Char} (hne : w ≠ []) (hw : ∀ c ∈ w, isWS c = false) :
    fields w = [w] := by
  unfold fields
  rw [show w = w ++ [] from by simp, fieldsAux_word hw [] []]
  have : (w.reverse ++ []).isEmpty = false := by simp [List.isEmpty_iff, hne]
  simp only [fieldsAux, this, Bool.false_eq_true, if_false]
  simp

theorem fields_all_ws {l : List Char} (h : ∀ c ∈ l, isWS c = true) : fields l = [] := by
  unfold fields
  induction l with
  | nil => rfl
  | cons c cs ih =>
    simp only [fieldsAux, h c (by simp), if_true, List.isEmpty_nil]
    exact ih fun x hx => h x (by simp [hx])

/-! ## splitKV lemmas -/

theorem splitKV_append {k v : List Char} (hk : ∀ c ∈ k, (c == ':') = false) :
    splitKV (k ++ ':' :: v) = some (k, v) := by
  unfold splitKV
  have hmem : (k ++ ':' :: v).contains ':' = true := by
    simp [List.contains_eq_any_beq]
  rw [if_pos hmem]
  have htake : (k ++ ':' :: v).takeWhile (fun c => !(c == ':')) = k := by
    rw [takeWhile_append_of_all _ (by intro c hc; simp [hk c hc])]
    simp [List.takeWhile_cons]
  have hdrop : (k ++ ':' :: v).dropWhile (fun c => !(c == ':')) = ':' :: v := by
    rw [dropWhile_append_of_all _ (by intro c hc; simp [hk c hc])]
    simp [List.dropWhile_cons]
  rw [htake, hdrop]
  rfl

end FlipperIR

namespace FlipperIR

/-! ## Hex codec lemmas -/

theorem hexChar_facts {m : Nat} (h : m < 16) :
    hexDigitVal? (hexChar m) = some m ∧ isWS (hexChar m) = false ∧
      ¬ hexChar m = '\n' ∧ ¬ hexChar m = ':' := by
  interval_cases m <;> exact ⟨by decide, by decide, by decide, by decide⟩

theorem hex2_ne_nil (b : Nat) : hex2 b ≠ [] := by simp [hex2]

theorem hex2_mem {b : Nat} (hb : b < 256) {c : Char} (hc : c ∈ hex2 b) :
    isWS c = false ∧ ¬ c = '\n' ∧ ¬ c = ':' := by
  have h1 : b / 16 < 16 := by omega
  have h2 : b % 16 < 16 := by omega
  simp only [hex2, List.mem_cons, List.mem_singleton, List.not_mem_nil, or_false] at hc
  rcases hc with rfl | rfl
  · exact ⟨(hexChar_facts h1).2.1, (hexChar_facts h1).2.2.1, (hexChar_facts h1).2.2.2⟩
  · exact ⟨(hexChar_facts h2).2.1, (hexChar_facts h2).2.2.1, (hexChar_facts h2).2.2.2⟩

theorem parseHexByte?_hex2 {b : Nat} (hb : b < 256) : parseHexByte? (hex2 b) = some b := by
  have h1 : b / 16 < 16 := by omega
  have h2 : b % 16 < 16 := by omega
  show parseHexByte? [hexChar (b / 16), hexChar (b % 16)] = some b
  unfold parseHexByte?
  simp only [List.isEmpty_cons, Bool.false_eq_true, if_false]
  rw [show hexValAux? 0 [hexChar (b / 16), hexChar (b % 16)] =
      hexValAux? (16 * 0 + b / 16) [hexChar (b % 16)] from by
    simp [hexValAux?, (hexChar_facts h1).1]]
  rw [show hexValAux? (16 * 0 + b / 16) [hexChar (b % 16)] =
      some (16 * (16 * 0 + b / 16) + b % 16) from by
    simp [hexValAux?, (hexChar_facts h2).1]]
  have hv : 16 * (16 * 0 + b / 16) + b % 16 = b := by omega
  rw [hv]
  show (if b ≤ 255 then some b else none) = some b
  rw [if_pos (by omega)]

theorem fields_encode (v : Nat) :
    fields (encodeLEUint32Hex v) =
      [hex2 (v % 256), hex2 (v / 256 % 256), hex2 (v / 65536 % 256),
        hex2 (v / 16777216 % 256)] := by
  have hw0 : ∀ c ∈ hex2 (v % 256), isWS c = false :=
    fun c hc => (hex2_mem (by omega) hc).1
  have hw1 : ∀ c ∈ hex2 (v / 256 % 256), isWS c = false :=
    fun c hc => (hex2_mem (by omega) hc).1
  have hw2 : ∀ c ∈ hex2 (v / 65536 % 256), isWS c = false :=
    fun c hc => (hex2_mem (by omega) hc).1
  have hw3 : ∀ c ∈ hex2 (v / 16777216 % 256), isWS c = false :=
    fun c hc => (hex2_mem (by omega) hc).1
  unfold encodeLEUint32Hex
  simp only [List.append_assoc, List.cons_append]
  rw [fields_word_append (hex2_ne_nil _) hw0, fields_word_append (hex2_ne_nil _) hw1,
    fields_word_append (hex2_ne_nil _) hw2, fields_word (hex2_ne_nil _) hw3]

theorem leHex_encode {v : Nat} (hv : v < 2 ^ 32) :
    leHexToUint32? (encodeLEUint32Hex v) = some v := by
  have h0 := parseHexByte?_hex2 (show v % 256 < 256 by omega)
  have h1 := parseHexByte?_hex2 (show v / 256 % 256 < 256 by omega)
  have h2 := parseHexByte?_hex2 (show v / 65536 % 256 < 256 by omega)
  have h3 := parseHexByte?_hex2 (show v / 16777216 % 256 < 256 by omega)
  unfold leHexToUint32?
  rw [fields_encode]
  simp only [h0, h1, h2, h3]
  have hsum : v % 256 + v / 256 % 256 * 256 + v / 65536 % 256 * 65536 +
      v / 16777216 % 256 * 16777216 = v := by omega
  simp [hsum]

theorem hexValAux?_isSome :
    ∀ (t : List Char) (acc : Nat),
      (hexValAux? acc t).isSome = true ↔ ∀ c ∈ t, (hexDigitVal? c).isSome = true := by
  intro t
  induction t with
  | nil => intro acc; simp [hexValAux?]
  | cons c cs ih =>
    intro acc
    cases h : hexDigitVal? c with
    | none => simp [hexValAux?, h]
    | some d => simp [hexValAux?, h, ih]

theorem parseHexByte?_isSome_iff (t : List Char) :
    (parseHexByte? t).isSome = true ↔ HexTokOK t := by
  unfold parseHexByte? HexTokOK
  by_cases htne : t = []
  · subst htne; simp
  · have ht : t.isEmpty = false := by simpa [List.isEmpty_iff] using htne
    rw [ht]
    simp only [Bool.false_eq_true, if_false]
    cases h : hexValAux? 0 t with
    | none =>
      have hnall : ¬ ∀ c ∈ t, (hexDigitVal? c).isSome = true := by
        rw [← hexValAux?_isSome t 0, h]
        simp
      simp [htne, hnall]
    | some v =>
      have hall : ∀ c ∈ t, (hexDigitVal? c).isSome = true := by
        rw [← hexValAux?_isSome t 0, h]
        simp
      have hval : hexVal t = v := by simp [hexVal, h]
      rw [hval]
      show (if v ≤ 255 then some v else none).isSome = true ↔ _
      constructor
      · intro hs
        by_cases h255 : v ≤ 255
        · exact ⟨htne, hall, h255⟩
        · rw [if_neg h255] at hs
          simp at hs
      · rintro ⟨-, -, h255⟩
        rw [if_pos h255]
        rfl

theorem parseHexByte?_eq_some {t : List Char} {v : Nat} (h : parseHexByte? t = some v) :
    hexVal t = v ∧ v ≤ 255 := by
  unfold parseHexByte? at h
  split at h
  · exact absurd h (by simp)
  · rename_i hne
    cases haux : hexValAux? 0 t with
    | none => rw [haux] at h; exact absurd h (by simp)
    | some w =>
      rw [haux] at h
      have h' : (if w ≤ 255 then some w else none) = some v := h
      by_cases hw : w ≤ 255
      · rw [if_pos hw] at h'
        cases h'
        exact ⟨by simp [hexVal, haux], hw⟩
      · rw [if_neg hw] at h'
        exact absurd h' (by simp)

theorem intercalate_space_four (a b c d : List Char) :
    List.intercalate [' '] [a, b, c, d] = a ++ ' ' :: b ++ ' ' :: c ++ ' ' :: d := by
  simp [List.intercalate, List.intersperse]

end FlipperIR


namespace FlipperIR

theorem leHex_some_of_Hex4OK {s : List Char} (h : Hex4OK s) :
    ∃ t0 t1 t2 t3, fields s = [t0, t1, t2, t3] ∧
      leHexToUint32? s =
        some (hexVal t0 + hexVal t1 * 256 + hexVal t2 * 65536 + hexVal t3 * 16777216) ∧
      hexVal t0 ≤ 255 ∧ hexVal t1 ≤ 255 ∧ hexVal t2 ≤ 255 ∧ hexVal t3 ≤ 255 := by
  obtain ⟨hlen, htok⟩ := h
  rcases hfs : fields s with _ | ⟨t0, _ | ⟨t1, _ | ⟨t2, _ | ⟨t3, _ | ⟨t4, rest⟩⟩⟩⟩⟩ <;>
    rw [hfs] at hlen <;> simp at hlen
  have h0 := (parseHexByte?_isSome_iff t0).2 (htok t0 (by rw [hfs]; simp))
  have h1 := (parseHexByte?_isSome_iff t1).2 (htok t1 (by rw [hfs]; simp))
  have h2 := (parseHexByte?_isSome_iff t2).2 (htok t2 (by rw [hfs]; simp))
  have h3 := (parseHexByte?_isSome_iff t3).2 (htok t3 (by rw [hfs]; simp))
  obtain ⟨b0, hb0⟩ := Option.isSome_iff_exists.1 h0
  obtain ⟨b1, hb1⟩ := Option.isSome_iff_exists.1 h1
  obtain ⟨b2, hb2⟩ := Option.isSome_iff_exists.1 h2
  obtain ⟨b3, hb3⟩ := Option.isSome_iff_exists.1 h3
  obtain ⟨hv0, hle0⟩ := parseHexByte?_eq_some hb0
  obtain ⟨hv1, hle1⟩ := parseHexByte?_eq_some hb1
  obtain ⟨hv2, hle2⟩ := parseHexByte?_eq_some hb2
  obtain ⟨hv3, hle3⟩ := parseHexByte?_eq_some hb3
  refine ⟨t0, t1, t2, t3, rfl, ?_, by omega, by omega, by omega, by omega⟩
  unfold leHexToUint32?
  rw [hfs]
  simp [hb0, hb1, hb2, hb3, hv0, hv1, hv2, hv3]

theorem leHex_isSome_shape {s : List Char} (h : (leHexToUint32? s).isSome = true) :
    ∃ t0 t1 t2 t3, fields s = [t0, t1, t2, t3] ∧
      (parseHexByte? t0).isSome = true ∧ (parseHexByte? t1).isSome = true ∧
      (parseHexByte? t2).isSome = true ∧ (parseHexByte? t3).isSome = true := by
  unfold leHexToUint32? at h
  split at h
  · rename_i t0 t1 t2 t3 hfs
    split at h
    · rename_i b0 b1 b2 b3 h0 h1 h2 h3
      exact ⟨t0, t1, t2, t3, hfs, by simp [h0], by simp [h1], by simp [h2], by simp [h3]⟩
    · simp at h
  · simp at h

/-- Claim C4: leHexToUint32 fails exactly when the whitespace-split input
does not have exactly 4 tokens or some token is not a valid hex byte
(hex digits, value 0-255); on success token 0 is the least significant and
token 3 the most significant byte of the result. -/
theorem c4_leHex_failure_characterization (s : List Char) :
    ((leHexToUint32? s).isSome = true ↔ Hex4OK s) ∧
    ∀ v, leHexToUint32? s = some v →
      ∃ t0 t1 t2 t3, fields s = [t0, t1, t2, t3] ∧
        v % 256 = hexVal t0 ∧ v / 256 % 256 = hexVal t1 ∧
        v / 65536 % 256 = hexVal t2 ∧ v / 16777216 = hexVal t3 := by
  constructor
  · constructor
    · intro h
      obtain ⟨t0, t1, t2, t3, hfs, h0, h1, h2, h3⟩ := leHex_isSome_shape h
      refine ⟨by rw [hfs]; rfl, ?_⟩
      intro t ht
      rw [hfs] at ht
      simp only [List.mem_cons, List.not_mem_nil, or_false] at ht
      rcases ht with rfl | rfl | rfl | rfl
      · exact (parseHexByte?_isSome_iff t).1 h0
      · exact (parseHexByte?_isSome_iff t).1 h1
      · exact (parseHexByte?_isSome_iff t).1 h2
      · exact (parseHexByte?_isSome_iff t).1 h3
    · intro h4
      obtain ⟨t0, t1, t2, t3, hfs, hsome, _, _, _, _⟩ := leHex_some_of_Hex4OK h4
      simp [hsome]
  · intro v hv
    have hs : (leHexToUint32? s).isSome = true := by simp [hv]
    have h4 : Hex4OK s := by
      obtain ⟨t0, t1, t2, t3, hfs, h0, h1, h2, h3⟩ := leHex_isSome_shape hs
      refine ⟨by rw [hfs]; rfl, ?_⟩
      intro t ht
      rw [hfs] at ht
      simp only [List.mem_cons, List.not_mem_nil, or_false] at ht
      rcases ht with rfl | rfl | rfl | rfl
      · exact (parseHexByte?_isSome_iff t).1 h0
      · exact (parseHexByte?_isSome_iff t).1 h1
      · exact (parseHexByte?_isSome_iff t).1 h2
      · exact (parseHexByte?_isSome_iff t).1 h3
    obtain ⟨t0, t1, t2, t3, hfs, hsome, hle0, hle1, hle2, hle3⟩ := leHex_some_of_Hex4OK h4
    rw [hv] at hsome
    have hveq : v = hexVal t0 + hexVal t1 * 256 + hexVal t2 * 65536 + hexVal t3 * 16777216 := by
      exact Option.some.inj hsome
    exact ⟨t0, t1, t2, t3, hfs, by omega, by omega, by omega, by omega⟩

/-- Witness for C4 at the concrete input 15 00 00 00 (value 21). -/
theorem c4_leHex_failure_characterization_witness :
    ∃ t0 t1 t2 t3, fields ("15 00 00 00".toList) = [t0, t1, t2, t3] ∧
      21 % 256 = hexVal t0 ∧ 21 / 256 % 256 = hexVal t1 ∧
      21 / 65536 % 256 = hexVal t2 ∧ 21 / 16777216 = hexVal t3 :=
  (c4_leHex_failure_characterization ("15 00 00 00".toList)).2 21 (by decide)

/-- Claim C2: the little-endian hex codec is an inverse pair: decoding an
encoding returns the value, and encoding a decoded well-formed string
yields its normalization (upper-case, zero-padded 2-digit tokens, single
spaces). -/
theorem c2_hex_codec_inverse :
    (∀ v : Nat, v < 2 ^ 32 → leHexToUint32? (encodeLEUint32Hex v) = some v) ∧
    ∀ s : List Char, Hex4OK s →
      ∃ v, leHexToUint32? s = some v ∧ encodeLEUint32Hex v = normalizeHex s := by
  refine ⟨fun v hv => leHex_encode hv, fun s h4 => ?_⟩
  obtain ⟨t0, t1, t2, t3, hfs, hsome, hle0, hle1, hle2, hle3⟩ := leHex_some_of_Hex4OK h4
  refine ⟨_, hsome, ?_⟩
  unfold normalizeHex
  rw [hfs]
  simp only [List.map]
  rw [intercalate_space_four]
  unfold encodeLEUint32Hex
  have e0 : (hexVal t0 + hexVal t1 * 256 + hexVal t2 * 65536 + hexVal t3 * 16777216) % 256
      = hexVal t0 := by omega
  have e1 : (hexVal t0 + hexVal t1 * 256 + hexVal t2 * 65536 + hexVal t3 * 16777216)
      / 256 % 256 = hexVal t1 := by omega
  have e2 : (hexVal t0 + hexVal t1 * 256 + hexVal t2 * 65536 + hexVal t3 * 16777216)
      / 65536 % 256 = hexVal t2 := by omega
  have e3 : (hexVal t0 + hexVal t1 * 256 + hexVal t2 * 65536 + hexVal t3 * 16777216)
      / 16777216 % 256 = hexVal t3 := by omega
  rw [e0, e1, e2, e3]

/-- Witness for C2 at value 0xDEADBEEF and at the mixed-case input
f F 0fF 000. -/
theorem c2_hex_codec_inverse_witness :
    leHexToUint32? (encodeLEUint32Hex 3735928559) = some 3735928559 ∧
    ∃ v, leHexToUint32? ("f F 0fF 000".toList) = some v ∧
      encodeLEUint32Hex v = normalizeHex ("f F 0fF 000".toList) :=
  ⟨c2_hex_codec_inverse.1 3735928559 (by decide),
    c2_hex_codec_inverse.2 ("f F 0fF 000".toList) (by decide)⟩

/-- Claim C3 (code side): on the input whose 5th line (1-based) is the
malformed address ZZ 00 00 00, Unmarshal reports the 0-based index 4 taken
from Go's range loop, not the 1-based line number 5 the specification
requires. -/
theorem c3_error_line_index : Unmarshal ex3 = .error ⟨"address".toList, 4⟩ := by decide

/-- Claim C5: the example input parses to the one-signal library (name
Power, kind parsed, protocol NEC, address 0, command 21 = 0x15) and
serializing that library reproduces the input byte for byte. -/
theorem c5_example_scenario :
    Unmarshal ex5 = .ok lib5 ∧ (Marshal lib5).1 = ex5 := ⟨by decide, by decide⟩

/-- Counterexample to claim C1 as stated: libC satisfies every hypothesis
of the claim (nonempty names, recognized kind tags, clean string fields,
representable numerics), yet parsing its serialization does not return it:
the parsed signal's frequency 1 is never emitted, and the raw signal's
duty cycle 2^-23 is rounded away by %.6f. -/
theorem c1_roundtrip_counterexample :
    OrigWF libC ∧ ¬ Unmarshal (Marshal libC).1 = .ok libC := ⟨by decide, by decide⟩

/-- Counterexample to claim C6 as stated: after a first Filetype: line
with an empty value, the second Filetype: line is still captured (the
guard is emptiness of the field, not a fired-once flag), so fileKind ends
up X where the claim requires it to stay at the first line's empty value. -/
theorem c6_filetype_counterexample :
    Unmarshal ex6 = .ok ⟨"X".toList, [], []⟩ ∧ ("X".toList : List Char) ≠ [] :=
  ⟨by decide, by decide⟩

end FlipperIR

namespace FlipperIR

/-! ## Per-line parser characterization -/

theorem isPrefixOf_ex {p l : List Char} (h : p.isPrefixOf l = true) : ∃ r, l = p ++ r := by
  induction p generalizing l with
  | nil => exact ⟨l, rfl⟩
  | cons a as ih =>
    cases l with
    | nil => simp [List.isPrefixOf] at h
    | cons b bs =>
      simp only [List.isPrefixOf, Bool.and_eq_true, beq_iff_eq] at h
      obtain ⟨rfl, hrest⟩ := h
      obtain ⟨r, rfl⟩ := ih hrest
      exact ⟨r, rfl⟩

theorem splitKV_ftTag {r : List Char} :
    splitKV (ftTag ++ r) = some ("Filetype".toList, r) := by
  have h : ftTag ++ r = "Filetype".toList ++ ':' :: r := rfl
  rw [h, splitKV_append (by decide)]

theorem splitKV_verTag {r : List Char} :
    splitKV (verTag ++ r) = some ("Version".toList, r) := by
  have h : verTag ++ r = "Version".toList ++ ':' :: r := rfl
  rw [h, splitKV_append (by decide)]

/-- The key/value switch preserves everything but the current record:
success is exactly the absence of a bad numeric field, and the header
fields and flushed signal list are untouched. -/
theorem stepKV_spec (st : PState) (n : Nat) (k v : List Char) :
    ((stepKV st n k v).isOk = !lineBadKV k v) ∧
    ∀ st', stepKV st n k v = .ok st' →
      st'.filetype = st.filetype ∧ st'.version = st.version ∧ st'.signals = st.signals := by
  unfold stepKV
  by_cases hk1 : (trim k == "name".toList) = true
  · rw [if_pos hk1]
    have hbad : lineBadKV k v = false := by
      unfold lineBadKV
      rw [show trim k = "name".toList from by simpa using hk1]
      rfl
    rw [hbad]
    exact ⟨rfl, fun st' h => by cases h; exact ⟨rfl, rfl, rfl⟩⟩
  · rw [if_neg hk1]
    by_cases hk2 : (trim k == "type".toList) = true
    · rw [if_pos hk2]
      have hbad : lineBadKV k v = false := by
        unfold lineBadKV
        rw [show trim k = "type".toList from by simpa using hk2]
        rfl
      rw [hbad]
      exact ⟨rfl, fun st' h => by cases h; exact ⟨rfl, rfl, rfl⟩⟩
    · rw [if_neg hk2]
      by_cases hk3 : (trim k == "protocol".toList) = true
      · rw [if_pos hk3]
        have hbad : lineBadKV k v = false := by
          unfold lineBadKV
          rw [show trim k = "protocol".toList from by simpa using hk3]
          rfl
        rw [hbad]
        exact ⟨rfl, fun st' h => by cases h; exact ⟨rfl, rfl, rfl⟩⟩
      · rw [if_neg hk3]
        by_cases hk4 : (trim k == "address".toList) = true
        · rw [if_pos hk4]
          have hbad : lineBadKV k v = !(leHexToUint32? (trim v)).isSome := by
            unfold lineBadKV
            rw [show trim k = "address".toList from by simpa using hk4]
            rfl
          rw [hbad]
          cases hp : leHexToUint32? (trim v) with
          | some a => exact ⟨rfl, fun st' h => by cases h; exact ⟨rfl, rfl, rfl⟩⟩
          | none => exact ⟨rfl, fun st' h => by cases h⟩
        · rw [if_neg hk4]
          by_cases hk5 : (trim k == "command".toList) = true
          · rw [if_pos hk5]
            have hbad : lineBadKV k v = !(leHexToUint32? (trim v)).isSome := by
              unfold lineBadKV
              rw [show trim k = "command".toList from by simpa using hk5]
              rfl
            rw [hbad]
            cases hp : leHexToUint32? (trim v) with
            | some a => exact ⟨rfl, fun st' h => by cases h; exact ⟨rfl, rfl, rfl⟩⟩
            | none => exact ⟨rfl, fun st' h => by cases h⟩
          · rw [if_neg hk5]
            have hor : ((trim k == "address".toList) || (trim k == "command".toList))
                = false := by
              rw [Bool.or_eq_false_iff]
              exact ⟨by simpa using hk4, by simpa using hk5⟩
            by_cases hk6 : (trim k == "frequency".toList) = true
            · rw [if_pos hk6]
              have hbad : lineBadKV k v = !(goAtoi? (trim v)).isSome := by
                unfold lineBadKV
                rw [hor]
                simp only [Bool.false_eq_true, if_false]
                rw [if_pos hk6]
              rw [hbad]
              cases hp : goAtoi? (trim v) with
              | some a => exact ⟨rfl, fun st' h => by cases h; exact ⟨rfl, rfl, rfl⟩⟩
              | none => exact ⟨rfl, fun st' h => by cases h⟩
            · rw [if_neg hk6]
              by_cases hk7 : (trim k == "duty_cycle".toList) = true
              · rw [if_pos hk7]
                have hbad : lineBadKV k v = !(parseFloat? (trim v)).isSome := by
                  unfold lineBadKV
                  rw [hor]
                  simp only [Bool.false_eq_true, if_false]
                  rw [if_neg hk6, if_pos hk7]
                rw [hbad]
                cases hp : parseFloat? (trim v) with
                | some a => exact ⟨rfl, fun st' h => by cases h; exact ⟨rfl, rfl, rfl⟩⟩
                | none => exact ⟨rfl, fun st' h => by cases h⟩
              · rw [if_neg hk7]
                by_cases hk8 : (trim k == "data".toList) = true
                · rw [if_pos hk8]
                  have hbad : lineBadKV k v
                      = !((fields (trim v)).mapM goAtoi?).isSome := by
                    unfold lineBadKV
                    rw [hor]
                    simp only [Bool.false_eq_true, if_false]
                    rw [if_neg hk6, if_neg hk7, if_pos hk8]
                  rw [hbad]
                  cases hp : (fields (trim v)).mapM goAtoi? with
                  | some a => exact ⟨rfl, fun st' h => by cases h; exact ⟨rfl, rfl, rfl⟩⟩
                  | none => exact ⟨rfl, fun st' h => by cases h⟩
                · rw [if_neg hk8]
                  have hbad : lineBadKV k v = false := by
                    unfold lineBadKV
                    rw [hor]
                    simp only [Bool.false_eq_true, if_false]
                    rw [if_neg hk6, if_neg hk7, if_neg hk8]
                  rw [hbad]
                  exact ⟨rfl, fun st' h => by cases h; exact ⟨rfl, rfl, rfl⟩⟩

/-- One fused characterization of a loop iteration: success is exactly the
absence of a bad numeric field on the line; a successful step updates the
filetype field exactly when the emptiness-guarded capture fires; and the
flushed signal list either is unchanged or gains the current record, which
then has a nonempty name. -/
theorem step_spec (st : PState) (n : Nat) (raw : List Char) :
    ((step st n raw).isOk = !lineBad raw) ∧
    ∀ st', step st n raw = .ok st' →
      (st'.filetype =
        (if st.filetype.isEmpty && ftTag.isPrefixOf (trim raw) then
          trim ((trim raw).drop ftTag.length)
        else st.filetype)) ∧
      (st'.signals = st.signals ∨
        (st'.signals = st.signals ++ [st.curr] ∧ st.curr.name ≠ [])) := by
  unfold step
  by_cases h1 : (trim raw).isEmpty = true
  · rw [if_pos h1]
    have h1' : trim raw = [] := by simpa [List.isEmpty_iff] using h1
    have hbad : lineBad raw = false := by unfold lineBad; rw [h1']; rfl
    rw [hbad]
    refine ⟨rfl, ?_⟩
    intro st' hst'
    cases hst'
    constructor
    · rw [h1']
      have hp : ftTag.isPrefixOf ([] : List Char) = false := rfl
      rw [hp]
      simp
    · exact Or.inl rfl
  · rw [if_neg h1]
    by_cases h2 : (st.filetype.isEmpty && ftTag.isPrefixOf (trim raw)) = true
    · rw [if_pos h2]
      have h2' := h2
      rw [Bool.and_eq_true] at h2'
      obtain ⟨-, hpfx⟩ := h2'
      obtain ⟨r, hr⟩ := isPrefixOf_ex hpfx
      have hkv : splitKV (trim raw) = some ("Filetype".toList, r) := by
        rw [hr]; exact splitKV_ftTag
      have hbad : lineBad raw = false := by
        unfold lineBad
        rw [hkv]
        show lineBadKV ("Filetype".toList) r = false
        rfl
      rw [hbad]
      refine ⟨rfl, ?_⟩
      intro st' hst'
      cases hst'
      exact ⟨by rw [if_pos h2], Or.inl rfl⟩
    · rw [if_neg h2]
      by_cases h3 : (st.version.isEmpty && verTag.isPrefixOf (trim raw)) = true
      · rw [if_pos h3]
        have h3' := h3
        rw [Bool.and_eq_true] at h3'
        obtain ⟨-, hpfx⟩ := h3'
        obtain ⟨r, hr⟩ := isPrefixOf_ex hpfx
        have hkv : splitKV (trim raw) = some ("Version".toList, r) := by
          rw [hr]; exact splitKV_verTag
        have hbad : lineBad raw = false := by
          unfold lineBad
          rw [hkv]
          show lineBadKV ("Version".toList) r = false
          rfl
        rw [hbad]
        refine ⟨rfl, ?_⟩
        intro st' hst'
        cases hst'
        exact ⟨by rw [if_neg h2], Or.inl rfl⟩
      · rw [if_neg h3]
        by_cases h4 : (trim raw == ['#']) = true
        · rw [if_pos h4]
          have h4' : trim raw = ['#'] := by simpa using h4
          have hkv : splitKV (trim raw) = none := by rw [h4']; rfl
          have hbad : lineBad raw = false := by unfold lineBad; rw [hkv]
          rw [hbad]
          constructor
          · by_cases h5 : (!st.curr.name.isEmpty) = true
            · rw [if_pos h5]; rfl
            · rw [if_neg h5]; rfl
          · intro st' hst'
            refine ⟨?_, ?_⟩
            · have hft : st'.filetype = st.filetype := by
                by_cases h5 : (!st.curr.name.isEmpty) = true
                · rw [if_pos h5] at hst'; cases hst'; rfl
                · rw [if_neg h5] at hst'; cases hst'; rfl
              rw [hft, if_neg h2]
            · by_cases h5 : (!st.curr.name.isEmpty) = true
              · rw [if_pos h5] at hst'
                cases hst'
                exact Or.inr ⟨rfl, by simpa [List.isEmpty_iff] using h5⟩
              · rw [if_neg h5] at hst'
                cases hst'
                exact Or.inl rfl
        · rw [if_neg h4]
          cases hkv : splitKV (trim raw) with
          | none =>
            have hbad : lineBad raw = false := by unfold lineBad; rw [hkv]
            rw [hbad]
            refine ⟨rfl, ?_⟩
            intro st' hst'
            cases hst'
            exact ⟨by rw [if_neg h2], Or.inl rfl⟩
          | some kv =>
            obtain ⟨k, v⟩ := kv
            have hbad : lineBad raw = lineBadKV k v := by unfold lineBad; rw [hkv]
            rw [hbad]
            obtain ⟨hok, hpres⟩ := stepKV_spec st n k v
            refine ⟨hok, ?_⟩
            intro st' hst'
            have hst2 : stepKV st n k v = .ok st' := hst'
            obtain ⟨hft, hver, hsig⟩ := hpres st' hst2
            exact ⟨by rw [hft, if_neg h2], Or.inl hsig⟩

end FlipperIR

namespace FlipperIR

/-! ## Loop-level invariants -/

theorem runLines_isOk (ls : List (List Char)) :
    ∀ (st : PState) (kk : Nat),
      (runLines st (ls.enumFrom kk)).isOk = ls.all fun l => !lineBad l := by
  induction ls with
  | nil => intro st kk; rfl
  | cons l rest ih =>
    intro st kk
    simp only [List.enumFrom_cons, runLines]
    cases hs : step st kk l with
    | ok st' =>
      have hok' : true = !lineBad l := (step_spec st kk l).1 ▸ (by rw [hs]; rfl)
      have hbad : lineBad l = false := by
        cases hlb : lineBad l
        · rfl
        · rw [hlb] at hok'
          exact Bool.noConfusion hok'
      rw [List.all_cons, hbad, ← ih st' (kk + 1)]
      rfl
    | error e =>
      have hok' : false = !lineBad l := (step_spec st kk l).1 ▸ (by rw [hs]; rfl)
      have hbad : lineBad l = true := by
        cases hlb : lineBad l
        · rw [hlb] at hok'
          exact Bool.noConfusion hok'
        · rfl
      rw [List.all_cons, hbad]
      rfl

theorem Unmarshal_isOk (s : List Char) :
    (Unmarshal s).isOk = (splitOnChar '\n' s).all fun l => !lineBad l := by
  have h : (runLines ⟨[], [], {}, []⟩ ((splitOnChar '\n' s).enum)).isOk
      = (splitOnChar '\n' s).all fun l => !lineBad l := by
    have h0 := runLines_isOk (splitOnChar '\n' s) ⟨[], [], {}, []⟩ 0
    simpa [List.enum] using h0
  unfold Unmarshal
  cases hr : runLines ⟨[], [], {}, []⟩ ((splitOnChar '\n' s).enum) with
  | ok st => rw [hr] at h; exact h
  | error e => rw [hr] at h; exact h

/-- Claim C7: Unmarshal fails exactly when some input line carries one of
the five numeric keys with a value its decoder rejects; blank lines, #
lines, colon-free lines, unknown keys and unrecognized type values never
fail (lineBad is false on all of them by definition), and failure is
all-or-nothing since the error return carries no library. -/
theorem c7_error_iff_malformed (s : List Char) :
    (Unmarshal s).isOk = true ↔ ∀ raw ∈ splitOnChar '\n' s, lineBad raw = false := by
  rw [Unmarshal_isOk, List.all_eq_true]
  constructor
  · intro h raw hraw
    simpa using h raw hraw
  · intro h raw hraw
    simp [h raw hraw]

theorem runLines_names (ls : List (List Char)) :
    ∀ (st : PState) (kk : Nat) (st' : PState),
      runLines st (ls.enumFrom kk) = .ok st' →
      (∀ x ∈ st.signals, x.name ≠ []) → ∀ x ∈ st'.signals, x.name ≠ [] := by
  induction ls with
  | nil =>
    intro st kk st' h hinv
    cases h
    exact hinv
  | cons l rest ih =>
    intro st kk st' h hinv
    cases hs : step st kk l with
    | error e =>
      simp only [List.enumFrom_cons, runLines, hs] at h
      exact Except.noConfusion h
    | ok stm =>
      simp only [List.enumFrom_cons, runLines, hs] at h
      refine ih stm (kk + 1) st' h ?_
      intro x hx
      rcases ((step_spec st kk l).2 stm hs).2 with hsig | ⟨hsig, hname⟩
      · rw [hsig] at hx
        exact hinv x hx
      · rw [hsig] at hx
        rcases List.mem_append.1 hx with hx' | hx'
        · exact hinv x hx'
        · simp only [List.mem_singleton] at hx'
          subst hx'
          exact hname

/-- Claim C8: a successfully parsed library contains no signal with an
empty name — the delimiter only flushes a record with a nonempty name, and
the end-of-input flush is guarded the same way. -/
theorem c8_names_nonempty {s : List Char} {lib : SignalLib} (h : Unmarshal s = .ok lib) :
    ∀ sg ∈ lib.signals, sg.name ≠ [] := by
  unfold Unmarshal at h
  cases hr : runLines ⟨[], [], {}, []⟩ ((splitOnChar '\n' s).enum) with
  | error e =>
    rw [hr] at h
    exact Except.noConfusion h
  | ok st =>
    rw [hr] at h
    have hfin : finish st = lib := Except.ok.inj h
    have hnames : ∀ x ∈ st.signals, x.name ≠ [] := by
      refine runLines_names (splitOnChar '\n' s) ⟨[], [], {}, []⟩ 0 st ?_ ?_
      · simpa [List.enum] using hr
      · intro x hx
        simp at hx
    intro sg hsg
    rw [← hfin] at hsg
    unfold finish at hsg
    by_cases hc : (!st.curr.name.isEmpty) = true
    · rw [if_pos hc] at hsg
      rcases List.mem_append.1 hsg with h' | h'
      · exact hnames sg h'
      · simp only [List.mem_singleton] at h'
        subst h'
        simpa [List.isEmpty_iff] using hc
    · rw [if_neg hc] at hsg
      exact hnames sg hsg

/-- Witness for C8 on the concrete example input: the one signal the
example parses to has the nonempty name Power. -/
theorem c8_names_nonempty_witness : ("Power".toList : List Char) ≠ [] :=
  @c8_names_nonempty ex5 lib5 (by decide)
    { name := "Power".toList, type := "parsed".toList, protocol := "NEC".toList,
      address := 0, command := 21 } (by decide)

theorem runLines_filetype (ls : List (List Char)) :
    ∀ (st : PState) (kk : Nat) (st' : PState),
      runLines st (ls.enumFrom kk) = .ok st' →
      st'.filetype = (if st.filetype.isEmpty then firstFT ls else st.filetype) := by
  induction ls with
  | nil =>
    intro st kk st' h
    cases h
    by_cases hft : st.filetype.isEmpty = true
    · rw [if_pos hft]
      show st.filetype = firstFT []
      have hnil : st.filetype = [] := by simpa [List.isEmpty_iff] using hft
      rw [hnil]
      rfl
    · rw [if_neg hft]
  | cons l rest ih =>
    intro st kk st' h
    cases hs : step st kk l with
    | error e =>
      simp only [List.enumFrom_cons, runLines, hs] at h
      exact Except.noConfusion h
    | ok stm =>
      simp only [List.enumFrom_cons, runLines, hs] at h
      have hft := ((step_spec st kk l).2 stm hs).1
      have hrec := ih stm (kk + 1) st' h
      rw [hrec, hft]
      by_cases hempty : st.filetype.isEmpty = true
      · by_cases hpfx : ftTag.isPrefixOf (trim l) = true
        · by_cases hre : (trim ((trim l).drop ftTag.length)).isEmpty = true
          · simp [firstFT, ftValOf, hempty, hpfx, hre]
          · simp [firstFT, ftValOf, hempty, hpfx, hre]
        · simp [firstFT, ftValOf, hempty, hpfx]
      · simp [hempty]

/-- Amended claim C6: the Filetype capture is guarded by emptiness of the
already-captured value, so the final fileKind is the value of the first
Filetype: line whose trimmed remainder is nonempty (or empty if no such
line exists); in particular once fileKind is nonempty every later
Filetype: line falls through to generic key handling and leaves it
unchanged. -/
theorem c6_filetype_amended {s : List Char} {lib : SignalLib}
    (h : Unmarshal s = .ok lib) : lib.filetype = firstFT (splitOnChar '\n' s) := by
  unfold Unmarshal at h
  cases hr : runLines ⟨[], [], {}, []⟩ ((splitOnChar '\n' s).enum) with
  | error e =>
    rw [hr] at h
    exact Except.noConfusion h
  | ok st =>
    rw [hr] at h
    have hfin : finish st = lib := Except.ok.inj h
    have hft := runLines_filetype (splitOnChar '\n' s) ⟨[], [], {}, []⟩ 0 st
      (by simpa [List.enum] using hr)
    rw [← hfin]
    show st.filetype = _
    simpa using hft

/-- Witness for the amended C6 on the input whose first Filetype: line is
empty-valued. -/
theorem c6_filetype_amended_witness :
    (⟨"X".toList, [], []⟩ : SignalLib).filetype = firstFT (splitOnChar '\n' ex6) :=
  @c6_filetype_amended ex6 ⟨"X".toList, [], []⟩ (by decide)

end FlipperIR

namespace FlipperIR

/-! ## Decimal digit and integer formatting lemmas -/

theorem digit_char_bounds {c : Char} (h : (digitVal? c).isSome = true) :
    48 ≤ c.toNat ∧ c.toNat ≤ 57 := by
  unfold digitVal? at h
  split at h
  · rename_i hc
    obtain ⟨h1, h2⟩ := hc
    rw [Char.le_def, UInt32.le_def] at h1 h2
    exact ⟨h1, h2⟩
  · simp at h

theorem digit_char_props {c : Char} (h : (digitVal? c).isSome = true) :
    isWS c = false ∧ ¬ c = '\n' ∧ (c == '+') = false ∧ (c == '-') = false ∧
      (c == ':') = false ∧ (c == '.') = false ∧ (c == 'e') = false ∧
      (c == 'E') = false := by
  obtain ⟨h1, h2⟩ := digit_char_bounds h
  have hsp : (c == ' ') = false := by
    rw [beq_eq_false_iff_ne]; intro heq; subst heq; exact absurd h1 (by decide)
  have htab : (c == '\t') = false := by
    rw [beq_eq_false_iff_ne]; intro heq; subst heq; exact absurd h1 (by decide)
  have hnl : (c == '\n') = false := by
    rw [beq_eq_false_iff_ne]; intro heq; subst heq; exact absurd h1 (by decide)
  have hvt : (c == '\x0b') = false := by
    rw [beq_eq_false_iff_ne]; intro heq; subst heq; exact absurd h1 (by decide)
  have hff : (c == '\x0c') = false := by
    rw [beq_eq_false_iff_ne]; intro heq; subst heq; exact absurd h1 (by decide)
  have hcr : (c == '\r') = false := by
    rw [beq_eq_false_iff_ne]; intro heq; subst heq; exact absurd h1 (by decide)
  refine ⟨by unfold isWS; rw [hsp, htab, hnl, hvt, hff, hcr]; rfl,
    beq_eq_false_iff_ne.1 hnl, ?_, ?_, ?_, ?_, ?_, ?_⟩
  · rw [beq_eq_false_iff_ne]; intro heq; subst heq; exact absurd h1 (by decide)
  · rw [beq_eq_false_iff_ne]; intro heq; subst heq; exact absurd h1 (by decide)
  · rw [beq_eq_false_iff_ne]; intro heq; subst heq; exact absurd h2 (by decide)
  · rw [beq_eq_false_iff_ne]; intro heq; subst heq; exact absurd h1 (by decide)
  · rw [beq_eq_false_iff_ne]; intro heq; subst heq; exact absurd h2 (by decide)
  · rw [beq_eq_false_iff_ne]; intro heq; subst heq; exact absurd h2 (by decide)

theorem natDecDigitsAux_digits :
    ∀ (fuel n : Nat), ∀ c ∈ natDecDigitsAux fuel n, (digitVal? c).isSome = true := by
  intro fuel
  induction fuel with
  | zero => intro n c hc; simp [natDecDigitsAux] at hc
  | succ f ih =>
    intro n c hc
    cases n with
    | zero => simp [natDecDigitsAux] at hc
    | succ m =>
      simp only [natDecDigitsAux] at hc
      rcases List.mem_append.1 hc with h' | h'
      · exact ih _ c h'
      · simp only [List.mem_singleton] at h'
        subst h'
        have hlt : (m + 1) % 10 < 10 := Nat.mod_lt _ (by omega)
        set d := (m + 1) % 10 with hd
        interval_cases d <;> decide

theorem natDecDigitsAux_ne_nil (fuel n : Nat) (hn : 0 < n) (hfuel : n ≤ fuel) :
    natDecDigitsAux fuel n ≠ [] := by
  cases fuel with
  | zero => omega
  | succ f =>
    cases n with
    | zero => omega
    | succ m => simp [natDecDigitsAux]

theorem natDecDigits_ne_nil (n : Nat) : natDecDigits n ≠ [] := by
  unfold natDecDigits
  by_cases h : n = 0
  · rw [if_pos h]; simp
  · rw [if_neg h]; exact natDecDigitsAux_ne_nil n n (by omega) (le_refl n)

theorem natDecDigits_digits (n : Nat) :
    ∀ c ∈ natDecDigits n, (digitVal? c).isSome = true := by
  unfold natDecDigits
  by_cases h : n = 0
  · rw [if_pos h]
    intro c hc
    simp only [List.mem_singleton] at hc
    subst hc
    decide
  · rw [if_neg h]
    exact natDecDigitsAux_digits n n

theorem decValAux?_append (a b : List Char) :
    ∀ acc, decValAux? acc (a ++ b) = (decValAux? acc a).bind fun w => decValAux? w b := by
  induction a with
  | nil => intro acc; rfl
  | cons c cs ih =>
    intro acc
    simp only [List.cons_append, decValAux?]
    cases h : digitVal? c with
    | none => rfl
    | some d => exact ih _

theorem decValAux?_value :
    ∀ (fuel n acc : Nat), n ≤ fuel →
      decValAux? acc (natDecDigitsAux fuel n)
        = some (acc * 10 ^ (natDecDigitsAux fuel n).length + n) := by
  intro fuel
  induction fuel with
  | zero =>
    intro n acc h
    interval_cases n
    simp [natDecDigitsAux, decValAux?]
  | succ f ih =>
    intro n acc h
    cases n with
    | zero => simp [natDecDigitsAux, decValAux?]
    | succ m =>
      have hlt : (m + 1) % 10 < 10 := Nat.mod_lt _ (by omega)
      have hd : digitVal? (Char.ofNat (48 + (m + 1) % 10)) = some ((m + 1) % 10) := by
        set d := (m + 1) % 10 with hdd
        interval_cases d <;> decide
      have hq : (m + 1) / 10 ≤ f := by
        have h10 : (m + 1) / 10 < m + 1 := Nat.div_lt_self (by omega) (by omega)
        omega
      simp only [natDecDigitsAux]
      rw [decValAux?_append, ih ((m + 1) / 10) acc hq]
      show decValAux? _ [Char.ofNat (48 + (m + 1) % 10)] = _
      simp only [decValAux?, hd, List.length_append, List.length_cons, List.length_nil]
      congr 1
      have hdm := Nat.div_add_mod (m + 1) 10
      set L := (natDecDigitsAux f ((m + 1) / 10)).length with hL
      set q := (m + 1) / 10 with hq2
      set r := (m + 1) % 10 with hr2
      calc 10 * (acc * 10 ^ L + q) + r = acc * (10 ^ L * 10) + (10 * q + r) := by ring
        _ = acc * 10 ^ (L + 0 + 1) + (m + 1) := by rw [hdm]; ring_nf

theorem parseDecNat?_natDecDigits (n : Nat) : parseDecNat? (natDecDigits n) = some n := by
  unfold natDecDigits
  by_cases h : n = 0
  · rw [if_pos h, h]; decide
  · rw [if_neg h]
    unfold parseDecNat?
    have hne := natDecDigitsAux_ne_nil n n (by omega) (le_refl n)
    rw [show (natDecDigitsAux n n).isEmpty = false from by
      simpa [List.isEmpty_iff] using hne]
    simp only [Bool.false_eq_true, if_false]
    have hv := decValAux?_value n n 0 (le_refl n)
    simpa using hv

theorem decVal_natDecDigits (n : Nat) : decVal (natDecDigits n) = n := by
  unfold decVal
  unfold natDecDigits
  by_cases h : n = 0
  · rw [if_pos h, h]; decide
  · rw [if_neg h]
    rw [decValAux?_value n n 0 (le_refl n)]
    simp

theorem decValAux?_zeros (j : Nat) (l : List Char) :
    decValAux? 0 (List.replicate j '0' ++ l) = decValAux? 0 l := by
  induction j with
  | zero => rfl
  | succ i ih =>
    simp only [List.replicate_succ, List.cons_append, decValAux?]
    rw [show digitVal? '0' = some 0 from by decide]
    simpa using ih

theorem goAtoi?_intStr {i : Int} (h : Int64Ok i) : goAtoi? (intStr i) = some i := by
  obtain ⟨hlo, hhi⟩ := h
  unfold intStr
  by_cases hneg : i < 0
  · rw [if_pos hneg]
    show goAtoi? ('-' :: natDecDigits i.natAbs) = some i
    unfold goAtoi?
    simp only [show (('-' : Char) == '+') = false from rfl, Bool.false_eq_true, if_false,
      show (('-' : Char) == '-') = true from rfl, if_true]
    rw [parseDecNat?_natDecDigits]
    show (if ((i.natAbs : Nat) : Int) ≤ 2 ^ 63 then some (-((i.natAbs : Nat) : Int))
      else none) = some i
    rw [if_pos (by omega)]
    congr 1
    omega
  · rw [if_neg hneg]
    obtain ⟨c, cs, hcc⟩ : ∃ c cs, natDecDigits i.toNat = c :: cs := by
      cases hh : natDecDigits i.toNat with
      | nil => exact absurd hh (natDecDigits_ne_nil _)
      | cons c cs => exact ⟨c, cs, rfl⟩
    have hcdig : (digitVal? c).isSome = true := by
      have hm : c ∈ natDecDigits i.toNat := by rw [hcc]; simp
      exact natDecDigits_digits _ c hm
    obtain ⟨-, -, hplus, hminus, -, -, -, -⟩ := digit_char_props hcdig
    rw [hcc]
    unfold goAtoi?
    simp only [hplus, hminus, Bool.false_eq_true, if_false]
    rw [← hcc, parseDecNat?_natDecDigits]
    show (if ((i.toNat : Nat) : Int) ≤ 2 ^ 63 - 1 then some ((i.toNat : Nat) : Int)
      else none) = some i
    rw [if_pos (by omega)]
    congr 1
    omega

end FlipperIR

namespace FlipperIR

/-! ## Duty-cycle formatting inverse -/

theorem takeWhile_all {p : Char → Bool} {l : List Char} (h : ∀ c ∈ l, p c = true) :
    l.takeWhile p = l := by
  induction l with
  | nil => rfl
  | cons c cs ih =>
    simp only [List.takeWhile_cons, h c (by simp)]
    simp only [if_true, List.cons.injEq, true_and]
    exact ih fun x hx => h x (by simp [hx])

theorem dropWhile_all {p : Char → Bool} {l : List Char} (h : ∀ c ∈ l, p c = true) :
    l.dropWhile p = [] := by
  induction l with
  | nil => rfl
  | cons c cs ih =>
    simp only [List.dropWhile_cons, h c (by simp), if_true]
    exact ih fun x hx => h x (by simp [hx])

theorem takeWhile_append_stop {p : Char → Bool} {a : List Char} {x : Char}
    (b : List Char) (ha : ∀ c ∈ a, p c = true) (hx : p x = false) :
    (a ++ x :: b).takeWhile p = a := by
  rw [takeWhile_append_of_all _ ha]
  simp [List.takeWhile_cons, hx]

theorem dropWhile_append_stop {p : Char → Bool} {a : List Char} {x : Char}
    (b : List Char) (ha : ∀ c ∈ a, p c = true) (hx : p x = false) :
    (a ++ x :: b).dropWhile p = x :: b := by
  rw [dropWhile_append_of_all _ ha]
  simp [List.dropWhile_cons, hx]

theorem natDecDigitsAux_length :
    ∀ (fuel n k : Nat), n ≤ fuel → n < 10 ^ k → (natDecDigitsAux fuel n).length ≤ k := by
  intro fuel
  induction fuel with
  | zero =>
    intro n k h hk
    interval_cases n
    simp [natDecDigitsAux]
  | succ f ih =>
    intro n k h hk
    cases n with
    | zero => simp [natDecDigitsAux]
    | succ m =>
      have hk0 : k ≠ 0 := by
        intro hk0
        rw [hk0] at hk
        omega
      obtain ⟨k', rfl⟩ : ∃ k', k = k' + 1 := ⟨k - 1, by omega⟩
      have hq1 : (m + 1) / 10 < m + 1 := Nat.div_lt_self (by omega) (by omega)
      have hq : (m + 1) / 10 ≤ f := by omega
      have hqk : (m + 1) / 10 < 10 ^ k' := by
        rw [Nat.div_lt_iff_lt_mul (by omega)]
        calc m + 1 < 10 ^ (k' + 1) := hk
          _ = 10 ^ k' * 10 := by ring
      simp only [natDecDigitsAux, List.length_append, List.length_cons, List.length_nil]
      have := ih ((m + 1) / 10) k' hq hqk
      omega

theorem natDecDigits_length_le {m k : Nat} (hk : 0 < k) (hm : m < 10 ^ k) :
    (natDecDigits m).length ≤ k := by
  unfold natDecDigits
  by_cases h : m = 0
  · rw [if_pos h]
    simpa using hk
  · rw [if_neg h]
    exact natDecDigitsAux_length m m k (le_refl m) hm

theorem padSix_length {l : List Char} (h : l.length ≤ 6) : (padSix l).length = 6 := by
  simp only [padSix, List.length_append, List.length_replicate]
  omega

theorem padSix_digits {l : List Char} (h : ∀ c ∈ l, (digitVal? c).isSome = true) :
    ∀ c ∈ padSix l, (digitVal? c).isSome = true := by
  intro c hc
  rcases List.mem_append.1 hc with h' | h'
  · have : c = '0' := List.eq_of_mem_replicate h'
    subst this
    decide
  · exact h c h'

theorem decVal_padSix {m : Nat} :
    decVal (padSix (natDecDigits m)) = m := by
  unfold decVal padSix
  rw [decValAux?_zeros]
  have := decVal_natDecDigits m
  unfold decVal at this
  exact this

theorem round6_exact {q : ℚ} (h : q.den ∣ 1000000) :
    round6 q = q.num.natAbs * 1000000 / q.den := by
  unfold round6
  have hdvd : q.den ∣ q.num.natAbs * 1000000 := Dvd.dvd.mul_left h _
  have hmod : q.num.natAbs * 1000000 % q.den = 0 := by
    obtain ⟨c, hc⟩ := hdvd
    rw [hc]
    exact Nat.mul_mod_right _ _
  rw [hmod]
  rw [if_pos (by have := q.pos; omega)]

theorem mkRat_round6 {q : ℚ} (h : q.den ∣ 1000000) :
    mkRat (if q < 0 then -(round6 q : Int) else (round6 q : Int)) 1000000 = q := by
  have he := round6_exact h
  have hd : round6 q * q.den = q.num.natAbs * 1000000 := by
    rw [he]
    exact Nat.div_mul_cancel (Dvd.dvd.mul_left h _)
  have hdQ : ((q.den : ℚ)) ≠ 0 := Nat.cast_ne_zero.2 q.den_ne_zero
  have hcast : ((round6 q : ℚ)) * (q.den : ℚ) = (q.num.natAbs : ℚ) * 1000000 := by
    exact_mod_cast congrArg (fun n : Nat => (n : ℚ)) hd
  rw [Rat.mkRat_eq_div]
  by_cases hq : q < 0
  · rw [if_pos hq]
    have hnum : q.num < 0 := by
      by_contra hn
      have h0 : (0 : ℚ) ≤ q := Rat.num_nonneg.1 (by omega)
      linarith
    have habs : (q.num.natAbs : ℚ) = -(q.num : ℚ) := by
      rw [Int.cast_natAbs]
      exact_mod_cast abs_of_neg hnum
    rw [habs] at hcast
    conv_rhs => rw [← Rat.num_div_den q]
    push_cast
    field_simp
    linarith [hcast]
  · rw [if_neg hq]
    have hnum : 0 ≤ q.num := Rat.num_nonneg.2 (le_of_not_lt hq)
    have habs : (q.num.natAbs : ℚ) = (q.num : ℚ) := by
      rw [Int.cast_natAbs]
      exact_mod_cast abs_of_nonneg hnum
    rw [habs] at hcast
    conv_rhs => rw [← Rat.num_div_den q]
    push_cast
    field_simp
    linarith [hcast]

end FlipperIR

namespace FlipperIR

theorem lowerL_digit {c : Char} (h : (digitVal? c).isSome = true) : lowerL c = c := by
  obtain ⟨h1, h2⟩ := digit_char_bounds h
  unfold lowerL
  rw [if_neg (fun hand => by
    have hA := hand.1
    rw [Char.le_def, UInt32.le_def] at hA
    have hA2 : 65 ≤ c.toNat := hA
    omega)]

theorem digit_char_props2 {c : Char} (h : (digitVal? c).isSome = true) :
    (c == '_') = false ∧ ('_' == c) = false ∧ (c == 'i') = false ∧
      (c == 'n') = false ∧ (c == 'x') = false ∧ isDU c = true := by
  obtain ⟨h1, h2⟩ := digit_char_bounds h
  refine ⟨?_, ?_, ?_, ?_, ?_, ?_⟩
  · rw [beq_eq_false_iff_ne]; intro heq; subst heq; exact absurd h2 (by decide)
  · rw [beq_eq_false_iff_ne]; intro heq; rw [← heq] at h2; exact absurd h2 (by decide)
  · rw [beq_eq_false_iff_ne]; intro heq; subst heq; exact absurd h2 (by decide)
  · rw [beq_eq_false_iff_ne]; intro heq; subst heq; exact absurd h2 (by decide)
  · rw [beq_eq_false_iff_ne]; intro heq; subst heq; exact absurd h2 (by decide)
  · unfold isDU isDigitC
    rw [h]
    rfl

theorem contains_eq_false_of {a : Char} {l : List Char}
    (h : ∀ c ∈ l, (a == c) = false) : l.contains a = false := by
  induction l with
  | nil => rfl
  | cons c rest ih =>
    show ((a == c) || rest.contains a) = false
    rw [h c (by simp), ih fun x hx => h x (by simp [hx])]
    rfl

theorem decValAux?_zeros_acc :
    ∀ (j acc : Nat) (l : List Char),
      decValAux? acc (List.replicate j '0' ++ l) = decValAux? (acc * 10 ^ j) l := by
  intro j
  induction j with
  | zero => intro acc l; simp
  | succ i ih =>
    intro acc l
    simp only [List.replicate_succ, List.cons_append, decValAux?]
    rw [show digitVal? '0' = some 0 from by decide]
    show decValAux? (10 * acc + 0) (List.replicate i '0' ++ l) = _
    rw [ih]
    congr 1
    ring

theorem decValAux?_formatMant (N : Nat) :
    decValAux? 0 (natDecDigits (N / 1000000) ++ padSix (natDecDigits (N % 1000000)))
      = some N := by
  rw [decValAux?_append]
  have hI : decValAux? 0 (natDecDigits (N / 1000000)) = some (N / 1000000) := by
    have h := parseDecNat?_natDecDigits (N / 1000000)
    unfold parseDecNat? at h
    rw [show (natDecDigits (N / 1000000)).isEmpty = false from by
      simpa [List.isEmpty_iff] using natDecDigits_ne_nil (N / 1000000)] at h
    simpa using h
  rw [hI]
  show decValAux? (N / 1000000) (padSix (natDecDigits (N % 1000000))) = some N
  unfold padSix
  rw [decValAux?_zeros_acc]
  have hm : N % 1000000 < 1000000 := Nat.mod_lt _ (by omega)
  have hdm := Nat.div_add_mod N 1000000
  unfold natDecDigits
  by_cases h0 : N % 1000000 = 0
  · rw [if_pos h0]
    show decValAux? _ ['0'] = _
    simp only [decValAux?, show digitVal? '0' = some 0 from by decide]
    congr 1
    rw [show (['0'] : List Char).length = 1 from rfl]
    rw [show (10 : Nat) ^ (6 - 1) = 100000 from by norm_num]
    omega
  · rw [if_neg h0]
    rw [decValAux?_value (N % 1000000) (N % 1000000) _ (le_refl _)]
    congr 1
    have hlen : (natDecDigitsAux (N % 1000000) (N % 1000000)).length ≤ 6 := by
      have h6 := natDecDigits_length_le (show 0 < 6 by omega)
        (show N % 1000000 < 10 ^ 6 from by
          rw [show (10 : Nat) ^ 6 = 1000000 from by norm_num]
          exact hm)
      rw [natDecDigits, if_neg h0] at h6
      exact h6
    set L := (natDecDigitsAux (N % 1000000) (N % 1000000)).length with hL
    have hpw : N / 1000000 * 10 ^ (6 - L) * 10 ^ L = N / 1000000 * 1000000 := by
      rw [mul_assoc, ← pow_add, Nat.sub_add_cancel hlen]
      norm_num
    rw [hpw]
    omega

theorem round6_lt_bound {q : ℚ} (h : q.den ∣ 1000000)
    (hb : q.num.natAbs < fBound * q.den) : round6 q < fBound * 1000000 := by
  have hd : round6 q * q.den = q.num.natAbs * 1000000 := by
    rw [round6_exact h]
    exact Nat.div_mul_cancel (Dvd.dvd.mul_left h _)
  by_contra hge
  push_neg at hge
  have h1 : fBound * 1000000 * q.den ≤ round6 q * q.den :=
    Nat.mul_le_mul_right _ hge
  rw [hd] at h1
  have h2 : fBound * q.den * 1000000 ≤ q.num.natAbs * 1000000 := by
    calc fBound * q.den * 1000000 = fBound * 1000000 * q.den := by ring
      _ ≤ q.num.natAbs * 1000000 := h1
  have h3 : fBound * q.den ≤ q.num.natAbs :=
    Nat.le_of_mul_le_mul_right h2 (by omega)
  omega

theorem parseFloat?_formatF6 {q : ℚ} (h : q.den ∣ 1000000)
    (hb : q.num.natAbs < fBound * q.den) :
    parseFloat? (formatF6 q) = some (GoFloat.finite q) := by
  set N := round6 q with hN
  set I := natDecDigits (N / 1000000) with hI
  set F := padSix (natDecDigits (N % 1000000)) with hF
  have hIdig : ∀ c ∈ I, (digitVal? c).isSome = true := by
    rw [hI]; exact natDecDigits_digits _
  have hFdig : ∀ c ∈ F, (digitVal? c).isSome = true := by
    rw [hF]; exact padSix_digits (natDecDigits_digits _)
  have hIne : I ≠ [] := by rw [hI]; exact natDecDigits_ne_nil _
  have hIe : I.isEmpty = false := by simpa [List.isEmpty_iff] using hIne
  have hFlen : F.length = 6 := by
    rw [hF]
    exact padSix_length (natDecDigits_length_le (by omega)
      (by have := Nat.mod_lt (N * 1) (show 0 < 1000000 by omega); omega))
  have hIDU : ∀ c ∈ I, isDU c = true := fun c hc => (digit_char_props2 (hIdig c hc)).2.2.2.2.2
  have hFDU : ∀ c ∈ F, isDU c = true := fun c hc => (digit_char_props2 (hFdig c hc)).2.2.2.2.2
  have hdotDU : isDU '.' = false := by decide
  have htake : (I ++ '.' :: F).takeWhile isDU = I := takeWhile_append_stop F hIDU hdotDU
  have hdrop : (I ++ '.' :: F).dropWhile isDU = '.' :: F := dropWhile_append_stop F hIDU hdotDU
  have htakeF : F.takeWhile isDU = F := takeWhile_all hFDU
  have hdropF : F.dropWhile isDU = [] := dropWhile_all hFDU
  have hfiltI : I.filter isDigitC = I :=
    List.filter_eq_self.mpr fun c hc => hIdig c hc
  have hfiltF : F.filter isDigitC = F :=
    List.filter_eq_self.mpr fun c hc => hFdig c hc
  have hval : decVal (I ++ F) = N := by
    unfold decVal
    rw [hI, hF, decValAux?_formatMant]
    rfl
  obtain ⟨d, I2, hcc⟩ : ∃ d I2, I = d :: I2 := by
    cases hh : I with
    | nil => exact absurd hh hIne
    | cons d I2 => exact ⟨d, I2, rfl⟩
  have hdd := hIdig d (by rw [hcc]; simp)
  have hlowd : lowerL d = d := lowerL_digit hdd
  obtain ⟨-, -, hplus, hminus, -, -, -, -⟩ := digit_char_props hdd
  obtain ⟨-, -, hdi, hdn, -, -⟩ := digit_char_props2 hdd
  have hinfIC : infIC (I ++ '.' :: F) = false := by
    rw [hcc]
    unfold infIC
    simp only [List.cons_append, List.map_cons]
    rw [hlowd]
    show ((d == 'i') && _ || ((d == 'i') && _)) = false
    rw [hdi]
    rfl
  have hnan : ((I ++ '.' :: F).map lowerL == "nan".toList) = false := by
    rw [hcc]
    simp only [List.cons_append, List.map_cons]
    rw [hlowd]
    show ((d == 'n') && _) = false
    rw [hdn]
    rfl
  have hnoU : ∀ c ∈ I ++ '.' :: F, ('_' == c) = false := by
    intro c hc
    rcases List.mem_append.mp hc with h1 | h1
    · exact (digit_char_props2 (hIdig c h1)).2.1
    · rcases List.mem_cons.mp h1 with rfl | h2
      · decide
      · exact (digit_char_props2 (hFdig c h2)).2.1
  have hfas : ∀ (ng : Bool) (w : List Char),
      floatAfterSign ng (I ++ '.' :: F) w = decPath ng (I ++ '.' :: F) w := by
    intro ng w
    rw [hcc]
    cases I2 with
    | nil =>
      show (if (d == '0') && ((lowerL '.' == 'x') && !(F.isEmpty)) then _ else
        decPath ng ([d] ++ '.' :: F) w) = decPath ng ([d] ++ '.' :: F) w
      rw [show (lowerL '.' == 'x') = false from by decide]
      simp only [Bool.false_and, Bool.and_false, Bool.false_eq_true, if_false]
    | cons x2 I3 =>
      have hx2 := hIdig x2 (by rw [hcc]; simp)
      have hlx2 : (lowerL x2 == 'x') = false := by
        rw [lowerL_digit hx2]
        exact (digit_char_props2 hx2).2.2.2.2.1
      show (if (d == '0') && ((lowerL x2 == 'x') && _) then _ else
        decPath ng ((d :: x2 :: I3) ++ '.' :: F) w) = decPath ng ((d :: x2 :: I3) ++ '.' :: F) w
      rw [hlx2]
      simp only [Bool.false_and, Bool.and_false, Bool.false_eq_true, if_false]
  have hdec : ∀ (ng : Bool) (w : List Char),
      decPath ng (I ++ '.' :: F) w = decFinish ng (decVal (I ++ F)) F.length false 0 w := by
    intro ng w
    unfold decPath
    simp only [htake, hdrop, List.head?_cons, List.tail_cons,
      show ((some ('.' : Char) == some '.') = true) from rfl, if_true, eq_self_iff_true,
      htakeF, hdropF, hfiltI, hfiltF, hIe, Bool.false_and, Bool.false_eq_true, if_false]
  have hfin : ∀ (ng : Bool) (w : List Char), w.contains '_' = false →
      decFinish ng (decVal (I ++ F)) F.length false 0 w =
        mkFinite? ng N 1000000 := by
    intro ng w hw
    unfold decFinish
    rw [hw]
    simp only [Bool.false_and, Bool.false_eq_true, if_false]
    rw [pow_zero, mul_one, hval, hFlen]
    rw [show (10 : Nat) ^ 6 = 1000000 from by norm_num]
  have hbound : ¬ fBound * 1000000 ≤ N := by
    have := round6_lt_bound h hb
    omega
  have hmk := mkRat_round6 h
  by_cases hq : q < 0
  · have hform : formatF6 q = '-' :: (I ++ '.' :: F) := by
      unfold formatF6
      rw [if_pos hq, ← hN, ← hI, ← hF]
      rfl
    rw [hform]
    have hspec : specialFloat? ('-' :: (I ++ '.' :: F)) = none := by
      show (if infIC (I ++ '.' :: F) then some GoFloat.negInf else none) = none
      rw [hinfIC]
      rfl
    unfold parseFloat?
    rw [hspec]
    show floatAfterSign true (I ++ '.' :: F) ('-' :: (I ++ '.' :: F)) = _
    rw [hfas, hdec, hfin true _ (contains_eq_false_of (by
      intro c hc
      rcases List.mem_cons.mp hc with rfl | h1
      · decide
      · exact hnoU c h1))]
    unfold mkFinite?
    rw [if_neg hbound]
    rw [if_pos hq] at hmk
    rw [← hN] at hmk
    show some (GoFloat.finite (mkRat (-(N : Int)) 1000000)) = some (GoFloat.finite q)
    rw [hmk]
  · have hform : formatF6 q = I ++ '.' :: F := by
      unfold formatF6
      rw [if_neg hq, ← hN, ← hI, ← hF]
      rfl
    rw [hform]
    rw [show I ++ '.' :: F = d :: (I2 ++ '.' :: F) from by rw [hcc]; rfl]
    have hspec : specialFloat? (d :: (I2 ++ '.' :: F)) = none := by
      show (if (d == '+') = true then _ else if (d == '-') = true then _
        else if infIC (d :: (I2 ++ '.' :: F)) then some GoFloat.posInf
        else if ((d :: (I2 ++ '.' :: F)).map lowerL == "nan".toList) = true
        then some GoFloat.nan else none) = none
      rw [hplus, hminus]
      simp only [Bool.false_eq_true, if_false]
      rw [show (d :: (I2 ++ '.' :: F)) = I ++ '.' :: F from by rw [hcc]; rfl]
      rw [hinfIC, hnan]
      rfl
    unfold parseFloat?
    rw [hspec]
    show (if (d == '-') = true then _ else if (d == '+') = true then _
      else floatAfterSign false (d :: (I2 ++ '.' :: F)) (d :: (I2 ++ '.' :: F))) = _
    rw [hplus, hminus]
    simp only [Bool.false_eq_true, if_false]
    rw [show (d :: (I2 ++ '.' :: F)) = I ++ '.' :: F from by rw [hcc]; rfl]
    rw [hfas, hdec, hfin false _ (contains_eq_false_of hnoU)]
    unfold mkFinite?
    rw [if_neg hbound]
    rw [if_neg hq] at hmk
    rw [← hN] at hmk
    show some (GoFloat.finite (mkRat ((N : Int)) 1000000)) = some (GoFloat.finite q)
    rw [hmk]

end FlipperIR

namespace FlipperIR

/-! ## Serialization line-structure lemmas -/

theorem foldl_append_eq {α : Type} (f : α → List Char) :
    ∀ (xs : List α) (a : List Char),
      xs.foldl (fun acc x => acc ++ f x) a = a ++ (xs.map f).flatten := by
  intro xs
  induction xs with
  | nil => intro a; simp
  | cons x xs ih =>
    intro a
    simp only [List.foldl_cons, List.map_cons, List.flatten_cons]
    rw [ih]
    simp [List.append_assoc]

theorem trim_all_not_ws {l : List Char} (h : ∀ c ∈ l, isWS c = false) : trim l = l := by
  have hrev : ∀ c ∈ l.reverse, isWS c = false := fun c hc => h c (List.mem_reverse.1 hc)
  have hL : trimL l = l := by
    cases l with
    | nil => rfl
    | cons c cs => exact trimL_cons_not_ws (h c (by simp))
  have hR : trimR l = l := by
    unfold trimR
    cases hr : l.reverse with
    | nil =>
      rw [List.reverse_eq_nil_iff.1 hr]
      rfl
    | cons c cs =>
      rw [List.dropWhile_cons, hrev c (by rw [hr]; simp)]
      simp only [Bool.false_eq_true, if_false]
      rw [← hr, List.reverse_reverse]
  unfold trim
  rw [hL, hR]

theorem trimL_append_of_ne {u : List Char} (hne : u ≠ [])
    (hh : ∀ c ∈ u, isWS c = false) (y : List Char) : trimL (u ++ y) = u ++ y := by
  cases u with
  | nil => exact absurd rfl hne
  | cons c cs => exact trimL_cons_not_ws (hh c (by simp))

theorem trim_encode (a : Nat) : trim (encodeLEUint32Hex a) = encodeLEUint32Hex a := by
  have hL : trimL (encodeLEUint32Hex a) = encodeLEUint32Hex a := by
    exact trimL_cons_not_ws ((hexChar_facts (show a % 256 / 16 < 16 by omega)).2.1)
  have hhex : trimR (hex2 (a / 16777216 % 256)) = hex2 (a / 16777216 % 256) :=
    trimR_eq_self_of_trim_eq_self
      (trim_all_not_ws fun c hc => (hex2_mem (by omega) hc).1)
  have htr : trimR (' ' :: hex2 (a / 16777216 % 256))
      = ' ' :: hex2 (a / 16777216 % 256) := by
    show trimR ([' '] ++ hex2 (a / 16777216 % 256)) = [' '] ++ hex2 (a / 16777216 % 256)
    exact trimR_append_self hhex (hex2_ne_nil _)
  have hR : trimR (encodeLEUint32Hex a) = encodeLEUint32Hex a := by
    unfold encodeLEUint32Hex
    exact trimR_append_self htr (by simp)
  unfold trim
  rw [hL, hR]

theorem encode_not_nl {a : Nat} {c : Char} (hc : c ∈ encodeLEUint32Hex a) : ¬ c = '\n' := by
  unfold encodeLEUint32Hex at hc
  simp only [List.mem_append, List.mem_cons] at hc
  rcases hc with ((hc | hc) | hc) | hc
  · exact (hex2_mem (show a % 256 < 256 by omega) hc).2.1
  · rcases hc with rfl | hc
    · decide
    · exact (hex2_mem (show a / 256 % 256 < 256 by omega) hc).2.1
  · rcases hc with rfl | hc
    · decide
    · exact (hex2_mem (show a / 65536 % 256 < 256 by omega) hc).2.1
  · rcases hc with rfl | hc
    · decide
    · exact (hex2_mem (show a / 16777216 % 256 < 256 by omega) hc).2.1

theorem intStr_not_ws {i : Int} {c : Char} (hc : c ∈ intStr i) :
    isWS c = false ∧ ¬ c = '\n' := by
  unfold intStr at hc
  by_cases hneg : i < 0
  · rw [if_pos hneg] at hc
    rcases List.mem_cons.1 hc with rfl | hc
    · exact ⟨by decide, by decide⟩
    · have hd := natDecDigits_digits _ c hc
      exact ⟨(digit_char_props hd).1, (digit_char_props hd).2.1⟩
  · rw [if_neg hneg] at hc
    have hd := natDecDigits_digits _ c hc
    exact ⟨(digit_char_props hd).1, (digit_char_props hd).2.1⟩

theorem intStr_ne_nil (i : Int) : intStr i ≠ [] := by
  unfold intStr
  by_cases hneg : i < 0
  · rw [if_pos hneg]; simp
  · rw [if_neg hneg]; exact natDecDigits_ne_nil _

theorem trim_intStr (i : Int) : trim (intStr i) = intStr i :=
  trim_all_not_ws fun _ hc => (intStr_not_ws hc).1

theorem formatF6_not_ws {q : ℚ} {c : Char} (hc : c ∈ formatF6 q) :
    isWS c = false ∧ ¬ c = '\n' := by
  unfold formatF6 at hc
  simp only [List.mem_append, List.mem_cons] at hc
  rcases hc with (hc | hc) | rfl | hc
  · by_cases hq : q < 0
    · rw [if_pos hq] at hc
      simp only [List.mem_singleton] at hc
      subst hc
      exact ⟨by decide, by decide⟩
    · rw [if_neg hq] at hc
      simp at hc
  · have hd := natDecDigits_digits _ c hc
    exact ⟨(digit_char_props hd).1, (digit_char_props hd).2.1⟩
  · exact ⟨by decide, by decide⟩
  · have hd := padSix_digits (natDecDigits_digits _) c hc
    exact ⟨(digit_char_props hd).1, (digit_char_props hd).2.1⟩

theorem trim_formatF6 (q : ℚ) : trim (formatF6 q) = formatF6 q :=
  trim_all_not_ws fun _ hc => (formatF6_not_ws hc).1

theorem formatF6_ne_nil (q : ℚ) : formatF6 q ≠ [] := by
  unfold formatF6
  intro h
  have := congrArg List.length h
  simp only [List.length_append, List.length_cons, List.length_nil] at this
  omega

end FlipperIR

namespace FlipperIR

/-! ## Exact step behavior on serialized lines -/

theorem isPrefixOf_append_self : ∀ (p r : List Char), p.isPrefixOf (p ++ r) = true := by
  intro p r
  induction p with
  | nil => cases r <;> rfl
  | cons c cs ih => simp [List.isPrefixOf, ih]

theorem step_generic {st : PState} {n : Nat} {raw k v : List Char}
    (htrim : trim raw = k ++ ':' :: v)
    (hknc : ∀ c ∈ k, (c == ':') = false)
    (hemp : (k ++ ':' :: v).isEmpty = false)
    (hno_ft : ftTag.isPrefixOf (k ++ ':' :: v) = false)
    (hno_ver : verTag.isPrefixOf (k ++ ':' :: v) = false)
    (hno_hash : ((k ++ ':' :: v) == ['#']) = false) :
    step st n raw = stepKV st n k v := by
  unfold step
  dsimp only
  rw [htrim, hemp]
  simp only [Bool.false_eq_true, if_false]
  rw [hno_ft, hno_ver, hno_hash]
  simp only [Bool.and_false, Bool.false_eq_true, if_false]
  rw [splitKV_append hknc]

theorem stepKV_name {st : PState} {n : Nat} {w x : List Char} (hw : trim w = x) :
    stepKV st n ("name".toList) w = .ok { st with curr.name := x } := by
  unfold stepKV
  rw [show trim ("name".toList) = "name".toList from by decide]
  rw [if_pos (show (("name".toList == "name".toList) : Bool) = true from by decide)]
  rw [hw]

theorem stepKV_type {st : PState} {n : Nat} {w x : List Char} (hw : trim w = x) :
    stepKV st n ("type".toList) w = .ok { st with curr.type := x } := by
  unfold stepKV
  rw [show trim ("type".toList) = "type".toList from by decide]
  rw [if_neg (show ¬ (("type".toList == "name".toList) : Bool) = true from by decide)]
  rw [if_pos (show (("type".toList == "type".toList) : Bool) = true from by decide)]
  rw [hw]

theorem stepKV_protocol {st : PState} {n : Nat} {w x : List Char} (hw : trim w = x) :
    stepKV st n ("protocol".toList) w = .ok { st with curr.protocol := x } := by
  unfold stepKV
  rw [show trim ("protocol".toList) = "protocol".toList from by decide]
  rw [if_neg (show ¬ (("protocol".toList == "name".toList) : Bool) = true from by decide)]
  rw [if_neg (show ¬ (("protocol".toList == "type".toList) : Bool) = true from by decide)]
  rw [if_pos (show (("protocol".toList == "protocol".toList) : Bool) = true from by decide)]
  rw [hw]

theorem stepKV_address {st : PState} {n : Nat} {w x : List Char} {a : Nat}
    (hw : trim w = x) (hp : leHexToUint32? x = some a) :
    stepKV st n ("address".toList) w = .ok { st with curr.address := a } := by
  unfold stepKV
  rw [show trim ("address".toList) = "address".toList from by decide]
  rw [if_neg (show ¬ (("address".toList == "name".toList) : Bool) = true from by decide)]
  rw [if_neg (show ¬ (("address".toList == "type".toList) : Bool) = true from by decide)]
  rw [if_neg (show ¬ (("address".toList == "protocol".toList) : Bool) = true from by decide)]
  rw [if_pos (show (("address".toList == "address".toList) : Bool) = true from by decide)]
  rw [hw, hp]

theorem stepKV_command {st : PState} {n : Nat} {w x : List Char} {a : Nat}
    (hw : trim w = x) (hp : leHexToUint32? x = some a) :
    stepKV st n ("command".toList) w = .ok { st with curr.command := a } := by
  unfold stepKV
  rw [show trim ("command".toList) = "command".toList from by decide]
  rw [if_neg (show ¬ (("command".toList == "name".toList) : Bool) = true from by decide)]
  rw [if_neg (show ¬ (("command".toList == "type".toList) : Bool) = true from by decide)]
  rw [if_neg (show ¬ (("command".toList == "protocol".toList) : Bool) = true from by decide)]
  rw [if_neg (show ¬ (("command".toList == "address".toList) : Bool) = true from by decide)]
  rw [if_pos (show (("command".toList == "command".toList) : Bool) = true from by decide)]
  rw [hw, hp]

theorem stepKV_frequency {st : PState} {n : Nat} {w x : List Char} {f : Int}
    (hw : trim w = x) (hp : goAtoi? x = some f) :
    stepKV st n ("frequency".toList) w = .ok { st with curr.frequency := f } := by
  unfold stepKV
  rw [show trim ("frequency".toList) = "frequency".toList from by decide]
  rw [if_neg (show ¬ (("frequency".toList == "name".toList) : Bool) = true from by decide)]
  rw [if_neg (show ¬ (("frequency".toList == "type".toList) : Bool) = true from by decide)]
  rw [if_neg (show ¬ (("frequency".toList == "protocol".toList) : Bool) = true from by decide)]
  rw [if_neg (show ¬ (("frequency".toList == "address".toList) : Bool) = true from by decide)]
  rw [if_neg (show ¬ (("frequency".toList == "command".toList) : Bool) = true from by decide)]
  rw [if_pos (show (("frequency".toList == "frequency".toList) : Bool) = true from by decide)]
  rw [hw, hp]

theorem stepKV_duty {st : PState} {n : Nat} {w x : List Char} {q : GoFloat}
    (hw : trim w = x) (hp : parseFloat? x = some q) :
    stepKV st n ("duty_cycle".toList) w = .ok { st with curr.dutyCycle := q } := by
  unfold stepKV
  rw [show trim ("duty_cycle".toList) = "duty_cycle".toList from by decide]
  rw [if_neg (show ¬ (("duty_cycle".toList == "name".toList) : Bool) = true from by decide)]
  rw [if_neg (show ¬ (("duty_cycle".toList == "type".toList) : Bool) = true from by decide)]
  rw [if_neg (show ¬ (("duty_cycle".toList == "protocol".toList) : Bool) = true from by decide)]
  rw [if_neg (show ¬ (("duty_cycle".toList == "address".toList) : Bool) = true from by decide)]
  rw [if_neg (show ¬ (("duty_cycle".toList == "command".toList) : Bool) = true from by decide)]
  rw [if_neg (show ¬ (("duty_cycle".toList == "frequency".toList) : Bool) = true from by decide)]
  rw [if_pos (show (("duty_cycle".toList == "duty_cycle".toList) : Bool) = true from by decide)]
  rw [hw, hp]

theorem stepKV_data {st : PState} {n : Nat} {w x : List Char} {xs : List Int}
    (hw : trim w = x) (hp : (fields x).mapM goAtoi? = some xs) :
    stepKV st n ("data".toList) w = .ok { st with curr.data := xs } := by
  unfold stepKV
  rw [show trim ("data".toList) = "data".toList from by decide]
  rw [if_neg (show ¬ (("data".toList == "name".toList) : Bool) = true from by decide)]
  rw [if_neg (show ¬ (("data".toList == "type".toList) : Bool) = true from by decide)]
  rw [if_neg (show ¬ (("data".toList == "protocol".toList) : Bool) = true from by decide)]
  rw [if_neg (show ¬ (("data".toList == "address".toList) : Bool) = true from by decide)]
  rw [if_neg (show ¬ (("data".toList == "command".toList) : Bool) = true from by decide)]
  rw [if_neg (show ¬ (("data".toList == "frequency".toList) : Bool) = true from by decide)]
  rw [if_neg (show ¬ (("data".toList == "duty_cycle".toList) : Bool) = true from by decide)]
  rw [if_pos (show (("data".toList == "data".toList) : Bool) = true from by decide)]
  rw [hw, hp]

theorem step_hash_flush {st : PState} {n : Nat} (hname : st.curr.name ≠ []) :
    step st n ['#'] = .ok { st with signals := st.signals ++ [st.curr], curr := {} } := by
  unfold step
  dsimp only
  rw [show trim ['#'] = ['#'] from by decide]
  rw [show (['#'] : List Char).isEmpty = false from rfl]
  simp only [Bool.false_eq_true, if_false]
  rw [show ftTag.isPrefixOf ['#'] = false from rfl,
    show verTag.isPrefixOf ['#'] = false from rfl]
  simp only [Bool.and_false, Bool.false_eq_true, if_false]
  rw [if_pos (show ((['#'] : List Char) == ['#']) = true from rfl)]
  have hne : st.curr.name.isEmpty = false := by simpa [List.isEmpty_iff] using hname
  rw [hne]
  rfl

theorem step_hash_noop {st : PState} {n : Nat} (hname : st.curr.name = []) :
    step st n ['#'] = .ok st := by
  unfold step
  dsimp only
  rw [show trim ['#'] = ['#'] from by decide]
  rw [show (['#'] : List Char).isEmpty = false from rfl]
  simp only [Bool.false_eq_true, if_false]
  rw [show ftTag.isPrefixOf ['#'] = false from rfl,
    show verTag.isPrefixOf ['#'] = false from rfl]
  simp only [Bool.and_false, Bool.false_eq_true, if_false]
  rw [if_pos (show ((['#'] : List Char) == ['#']) = true from rfl)]
  rw [show st.curr.name.isEmpty = true from by rw [hname]; rfl]
  rfl

theorem step_ft_line {st : PState} {n : Nat} {ft : List Char} (hclean : CleanStr ft)
    (hft : st.filetype = []) :
    step st n ("Filetype: ".toList ++ ft) = .ok { st with filetype := ft } := by
  by_cases hne : ft = []
  · subst hne
    unfold step
    dsimp only
    rw [show trim ("Filetype: ".toList ++ ([] : List Char)) = ftTag from by decide]
    rw [show ftTag.isEmpty = false from rfl]
    simp only [Bool.false_eq_true, if_false]
    rw [hft]
    rw [if_pos (show ((List.isEmpty ([] : List Char)) && ftTag.isPrefixOf ftTag) = true
      from by decide)]
    rw [show trim (ftTag.drop ftTag.length) = ([] : List Char) from by decide]
  · have htrim : trim ("Filetype: ".toList ++ ft) = "Filetype: ".toList ++ ft :=
      trim_line (by decide) hclean.1 hne
    unfold step
    dsimp only
    rw [htrim]
    rw [show ("Filetype: ".toList ++ ft).isEmpty = false from rfl]
    simp only [Bool.false_eq_true, if_false]
    rw [hft]
    have hpfx : ftTag.isPrefixOf ("Filetype: ".toList ++ ft) = true := by
      show ftTag.isPrefixOf (ftTag ++ (' ' :: ft)) = true
      exact isPrefixOf_append_self _ _
    rw [if_pos (show (List.isEmpty ([] : List Char) && ftTag.isPrefixOf
      ("Filetype: ".toList ++ ft)) = true from by rw [hpfx]; rfl)]
    have hdrop : ("Filetype: ".toList ++ ft).drop ftTag.length = ' ' :: ft := by
      show (ftTag ++ (' ' :: ft)).drop ftTag.length = ' ' :: ft
      exact List.drop_left _ _
    rw [hdrop, trim_space_cons hclean.1]

theorem step_ver_line {st : PState} {n : Nat} {ver : List Char} (hclean : CleanStr ver)
    (hver : st.version = []) :
    step st n ("Version: ".toList ++ ver) = .ok { st with version := ver } := by
  by_cases hne : ver = []
  · subst hne
    unfold step
    dsimp only
    rw [show trim ("Version: ".toList ++ ([] : List Char)) = verTag from by decide]
    rw [show verTag.isEmpty = false from rfl]
    simp only [Bool.false_eq_true, if_false]
    rw [show ftTag.isPrefixOf verTag = false from rfl]
    simp only [Bool.and_false, Bool.false_eq_true, if_false]
    rw [hver]
    rw [if_pos (show ((List.isEmpty ([] : List Char)) && verTag.isPrefixOf verTag) = true
      from by decide)]
    rw [show trim (verTag.drop verTag.length) = ([] : List Char) from by decide]
  · have htrim : trim ("Version: ".toList ++ ver) = "Version: ".toList ++ ver :=
      trim_line (by decide) hclean.1 hne
    unfold step
    dsimp only
    rw [htrim]
    rw [show ("Version: ".toList ++ ver).isEmpty = false from rfl]
    simp only [Bool.false_eq_true, if_false]
    rw [show ftTag.isPrefixOf ("Version: ".toList ++ ver) = false from rfl]
    simp only [Bool.and_false, Bool.false_eq_true, if_false]
    rw [hver]
    have hpfx : verTag.isPrefixOf ("Version: ".toList ++ ver) = true := by
      show verTag.isPrefixOf (verTag ++ (' ' :: ver)) = true
      exact isPrefixOf_append_self _ _
    rw [if_pos (show (List.isEmpty ([] : List Char) && verTag.isPrefixOf
      ("Version: ".toList ++ ver)) = true from by rw [hpfx]; rfl)]
    have hdrop : ("Version: ".toList ++ ver).drop verTag.length = ' ' :: ver := by
      show (verTag ++ (' ' :: ver)).drop verTag.length = ' ' :: ver
      exact List.drop_left _ _
    rw [hdrop, trim_space_cons hclean.1]

theorem step_blank {st : PState} {n : Nat} : step st n [] = .ok st := rfl

end FlipperIR

namespace FlipperIR

/-! ## Line-view of serialization -/

theorem runLines_append_ok {st st' : PState} {xs : List (Nat × List Char)}
    (h : runLines st xs = .ok st') (ys : List (Nat × List Char)) :
    runLines st (xs ++ ys) = runLines st' ys := by
  induction xs generalizing st with
  | nil =>
    cases h
    rfl
  | cons p rest ih =>
    obtain ⟨n, l⟩ := p
    simp only [runLines] at h ⊢
    cases hs : step st n l with
    | ok st1 =>
      rw [hs] at h
      simp only [List.cons_append]
      exact ih h
    | error e =>
      rw [hs] at h
      exact absurd h (by simp)

theorem enumFrom_split {α : Type} :
    ∀ (xs ys : List α) (n : Nat),
      List.enumFrom n (xs ++ ys) = List.enumFrom n xs ++ List.enumFrom (n + xs.length) ys := by
  intro xs
  induction xs with
  | nil => intro ys n; simp [List.enumFrom]
  | cons a rest ih =>
    intro ys n
    show (n, a) :: List.enumFrom (n + 1) (rest ++ ys)
      = (n, a) :: (List.enumFrom (n + 1) rest ++ List.enumFrom (n + (rest.length + 1)) ys)
    rw [ih ys (n + 1)]
    have h2 : n + 1 + rest.length = n + (rest.length + 1) := by omega
    rw [h2]

theorem split_joinNL {ls : List (List Char)} (h : ∀ l ∈ ls, '\n' ∉ l) :
    splitOnChar '\n' (joinNL ls) = ls ++ [[]] := by
  induction ls with
  | nil => rfl
  | cons a rest ih =>
    have ha : joinNL (a :: rest) = a ++ '\n' :: joinNL rest := by
      simp [joinNL, List.append_assoc]
    rw [ha, splitOnChar_append_sep '\n' _ (h a (by simp))]
    rw [ih fun l hl => h l (by simp [hl])]
    rfl

theorem joinNL_append (a b : List (List Char)) :
    joinNL (a ++ b) = joinNL a ++ joinNL b := by
  simp [joinNL]

theorem joinNL_flatten (xs : List (List (List Char))) :
    joinNL xs.flatten = (xs.map joinNL).flatten := by
  induction xs with
  | nil => rfl
  | cons a rest ih =>
    simp only [List.flatten_cons, joinNL_append, List.map_cons]
    rw [ih]

theorem signalChunk_eq (s : Signal) : signalChunk s = joinNL (blockLines s) := by
  by_cases hp : s.type = "parsed".toList
  · simp [signalChunk, blockLines, joinNL, hp, List.append_assoc]
  · by_cases hr : s.type = "raw".toList
    · simp [signalChunk, blockLines, joinNL, hp, hr, List.append_assoc]
    · have hp2 : ¬ s.type = ['p', 'a', 'r', 's', 'e', 'd'] := fun h => hp h
      have hr2 : ¬ s.type = ['r', 'a', 'w'] := fun h => hr h
      simp [signalChunk, blockLines, joinNL, hp2, hr2]

theorem Marshal_fst_eq (L : SignalLib) : (Marshal L).1 = joinNL (libLines L) := by
  show L.signals.foldl (fun buf s => buf ++ signalChunk s)
    ("Filetype: ".toList ++ L.filetype ++ ['\n'] ++
      "Version: ".toList ++ L.version ++ ['\n']) = joinNL (libLines L)
  rw [foldl_append_eq signalChunk]
  have hmap : L.signals.map signalChunk = (L.signals.map blockLines).map joinNL := by
    simp only [List.map_map]
    exact List.map_congr_left fun s _ => signalChunk_eq s
  rw [hmap, ← joinNL_flatten]
  have hhead : "Filetype: ".toList ++ L.filetype ++ ['\n'] ++
      "Version: ".toList ++ L.version ++ ['\n'] =
      joinNL [("Filetype: ".toList ++ L.filetype), ("Version: ".toList ++ L.version)] := by
    simp [joinNL, List.append_assoc]
  rw [hhead, ← joinNL_append]
  rfl

end FlipperIR

namespace FlipperIR

/-- Claim C10: a `data` key whose value is empty or whitespace-only is not
a parse error — Unmarshal sets the current record's sample list to the
empty sequence — and a raw signal with an empty sample list round-trips
through the bare `data:` line Marshal emits for it. -/
theorem c10_empty_data (v : List Char) (hv : ∀ c ∈ v, isWS c = true)
    (hn : '\n' ∉ v) :
    Unmarshal (exD v) = .ok libD ∧
      (Marshal libD).1 = exD [] ∧ Unmarshal ((Marshal libD).1) = .ok libD := by
  refine ⟨?_, by decide, by decide⟩
  have hsplit : splitOnChar '\n' (exD v) =
      ["Filetype: f".toList, "Version: 1".toList, ['#'], "name: a".toList,
        "type: raw".toList, "frequency: 38000".toList,
        "duty_cycle: 0.500000".toList, "data:".toList ++ v, []] := by
    show splitOnChar '\n' ("Filetype: f".toList ++ '\n' ::
      ("Version: 1".toList ++ '\n' :: (['#'] ++ '\n' :: ("name: a".toList ++ '\n' ::
      ("type: raw".toList ++ '\n' :: ("frequency: 38000".toList ++ '\n' ::
      ("duty_cycle: 0.500000".toList ++ '\n' ::
      (("data:".toList ++ v) ++ '\n' :: [])))))))) = _
    rw [splitOnChar_append_sep '\n' _ (by decide)]
    rw [splitOnChar_append_sep '\n' _ (by decide)]
    rw [splitOnChar_append_sep '\n' _ (by decide)]
    rw [splitOnChar_append_sep '\n' _ (by decide)]
    rw [splitOnChar_append_sep '\n' _ (by decide)]
    rw [splitOnChar_append_sep '\n' _ (by decide)]
    rw [splitOnChar_append_sep '\n' _ (by decide)]
    rw [splitOnChar_append_sep '\n' [] (by
      intro hm
      rcases List.mem_append.mp hm with h1 | h1
      · exact absurd h1 (by decide)
      · exact hn h1)]
    rfl
  have hstepD : step
      ⟨"f".toList, "1".toList,
        { name := "a".toList, type := "raw".toList, frequency := 38000,
          dutyCycle := GoFloat.finite (mkRat 1 2) }, []⟩ 7 ("data:".toList ++ v) =
      .ok ⟨"f".toList, "1".toList,
        { name := "a".toList, type := "raw".toList, frequency := 38000,
          dutyCycle := GoFloat.finite (mkRat 1 2) }, []⟩ := by
    have htrim : trim ("data:".toList ++ v) = "data:".toList := by
      unfold trim
      rw [show trimL ("data:".toList ++ v) = "data:".toList ++ v from
        trimL_cons_not_ws (by decide)]
      rw [trimR_append_ws hv]
      decide
    unfold step
    dsimp only
    rw [htrim]
    decide
  unfold Unmarshal
  rw [hsplit]
  rw [show (["Filetype: f".toList, "Version: 1".toList, ['#'], "name: a".toList,
      "type: raw".toList, "frequency: 38000".toList, "duty_cycle: 0.500000".toList,
      "data:".toList ++ v, ([] : List Char)]).enum =
      [(0, "Filetype: f".toList), (1, "Version: 1".toList), (2, (['#'] : List Char)),
       (3, "name: a".toList), (4, "type: raw".toList), (5, "frequency: 38000".toList),
       (6, "duty_cycle: 0.500000".toList)] ++
      [(7, "data:".toList ++ v), (8, ([] : List Char))] from rfl]
  rw [runLines_append_ok (show runLines ⟨[], [], {}, []⟩
      [(0, "Filetype: f".toList), (1, "Version: 1".toList), (2, (['#'] : List Char)),
       (3, "name: a".toList), (4, "type: raw".toList), (5, "frequency: 38000".toList),
       (6, "duty_cycle: 0.500000".toList)] =
      .ok ⟨"f".toList, "1".toList,
        { name := "a".toList, type := "raw".toList, frequency := 38000,
          dutyCycle := GoFloat.finite (mkRat 1 2) }, []⟩ from by decide)]
  simp only [runLines]
  rw [hstepD]
  decide

/-- Closed witness for claim C10 at the whitespace value consisting of two
spaces. -/
theorem c10_empty_data_witness :
    Unmarshal (exD "  ".toList) = .ok libD ∧
      (Marshal libD).1 = exD [] ∧ Unmarshal ((Marshal libD).1) = .ok libD :=
  c10_empty_data "  ".toList (by decide) (by decide)

end FlipperIR

namespace FlipperIR

/-- Claim C9: Marshal never fails — its error component is nil for every
library value — and its output is exactly the fixed line sequence: the
Filetype line, the Version line, then for each signal in order a `#` line,
the name line, the type line, and only the kind-specific field lines
selected by exact match of the kind tag (none for an unrecognized tag), as
enumerated by libLines. -/
theorem c9_marshal_total_order (L : SignalLib) :
    (Marshal L).2 = none ∧ (Marshal L).1 = joinNL (libLines L) :=
  ⟨rfl, Marshal_fst_eq L⟩

/-- Closed witness for claim C9 at the C5 example library. -/
theorem c9_marshal_total_order_witness :
    (Marshal lib5).2 = none ∧ (Marshal lib5).1 = joinNL (libLines lib5) :=
  c9_marshal_total_order lib5

end FlipperIR

namespace FlipperIR

/-! ## Data-line lemmas -/

theorem encode_ne_nil (a : Nat) : encodeLEUint32Hex a ≠ [] := by
  unfold encodeLEUint32Hex hex2
  simp

theorem trimR_dataStr :
    ∀ (rest : List Int) (x0 : Int),
      trimR (intStr x0 ++ (rest.map fun v => ' ' :: intStr v).flatten) =
        intStr x0 ++ (rest.map fun v => ' ' :: intStr v).flatten := by
  intro rest
  induction rest with
  | nil =>
    intro x0
    simp only [List.map_nil, List.flatten_nil, List.append_nil]
    exact trimR_eq_self_of_trim_eq_self (trim_intStr x0)
  | cons x1 rest ih =>
    intro x0
    simp only [List.map_cons, List.flatten_cons, List.cons_append]
    rw [show intStr x0 ++ ' ' :: (intStr x1 ++ (rest.map fun v => ' ' :: intStr v).flatten)
        = (intStr x0 ++ [' ']) ++ (intStr x1 ++ (rest.map fun v => ' ' :: intStr v).flatten)
      from by rw [List.append_assoc]; rfl]
    rw [trimR_append_self (ih x1) (by
      intro h
      exact intStr_ne_nil x1 (List.append_eq_nil.mp h).1)]

theorem trim_dataStr (rest : List Int) (x0 : Int) :
    trim (intStr x0 ++ (rest.map fun v => ' ' :: intStr v).flatten) =
      intStr x0 ++ (rest.map fun v => ' ' :: intStr v).flatten := by
  unfold trim
  rw [trimL_append_of_ne (intStr_ne_nil x0) (fun c hc => (intStr_not_ws hc).1) _]
  exact trimR_dataStr rest x0

theorem fields_dataStr :
    ∀ (rest : List Int) (x0 : Int),
      fields (intStr x0 ++ (rest.map fun v => ' ' :: intStr v).flatten) =
        intStr x0 :: rest.map intStr := by
  intro rest
  induction rest with
  | nil =>
    intro x0
    simp only [List.map_nil, List.flatten_nil, List.append_nil]
    exact fields_word (intStr_ne_nil x0) (fun c hc => (intStr_not_ws hc).1)
  | cons x1 rest ih =>
    intro x0
    simp only [List.map_cons, List.flatten_cons, List.cons_append]
    rw [fields_word_append (intStr_ne_nil x0) (fun c hc => (intStr_not_ws hc).1)]
    rw [ih x1]

theorem mapM_goAtoi_intStr :
    ∀ (xs : List Int), (∀ x ∈ xs, Int64Ok x) →
      ((xs.map intStr).mapM goAtoi?) = some xs := by
  intro xs
  induction xs with
  | nil => intro _; rfl
  | cons x rest ih =>
    intro h
    simp only [List.map_cons, List.mapM_cons, goAtoi?_intStr (h x (by simp)),
      ih fun y hy => h y (by simp [hy])]
    rfl

/-! ## The block chain -/

/-- The effect of a `#` line: flush a record in progress, keep the state
otherwise. -/
def flushMid (st : PState) : PState :=
  if st.curr.name.isEmpty then st
  else { st with signals := st.signals ++ [st.curr], curr := {} }

/-- State after executing a sequence of serialized signal blocks. -/
def chain : PState → List Signal → PState
  | st, [] => st
  | st, s :: rest => chain { flushMid st with curr := s } rest

end FlipperIR

namespace FlipperIR

/-! ## Whole-line step lemmas for serialized field lines -/

theorem runLines_cons_ok {st st1 : PState} {n : Nat} {l : List Char}
    (h : step st n l = .ok st1) (rest : List (Nat × List Char)) :
    runLines st ((n, l) :: rest) = runLines st1 rest := by
  simp only [runLines]
  rw [h]

theorem step_hash (st : PState) (n : Nat) : step st n ['#'] = .ok (flushMid st) := by
  cases he : st.curr.name with
  | nil =>
    rw [step_hash_noop he]
    unfold flushMid
    rw [he]
    rfl
  | cons a l =>
    rw [step_hash_flush (by rw [he]; exact List.cons_ne_nil a l)]
    unfold flushMid
    rw [he]
    rfl

theorem step_name_line {st : PState} {n : Nat} {nm : List Char}
    (hnm : trim nm = nm) (hne : nm ≠ []) :
    step st n ("name: ".toList ++ nm) = .ok { st with curr.name := nm } := by
  have htrim : trim ("name: ".toList ++ nm) = "name".toList ++ ':' :: (' ' :: nm) :=
    trim_line (by decide) hnm hne
  exact (step_generic htrim (by decide) rfl rfl rfl rfl).trans
    (stepKV_name (trim_space_cons hnm))

theorem step_type_parsed {st : PState} {n : Nat} :
    step st n ("type: ".toList ++ "parsed".toList) =
      .ok { st with curr.type := "parsed".toList } := by
  have htrim : trim ("type: ".toList ++ "parsed".toList) =
      "type".toList ++ ':' :: (' ' :: "parsed".toList) := by decide
  exact (step_generic htrim (by decide) rfl rfl rfl rfl).trans
    (stepKV_type (show trim (' ' :: "parsed".toList) = "parsed".toList from by decide))

theorem step_type_raw {st : PState} {n : Nat} :
    step st n ("type: ".toList ++ "raw".toList) =
      .ok { st with curr.type := "raw".toList } := by
  have htrim : trim ("type: ".toList ++ "raw".toList) =
      "type".toList ++ ':' :: (' ' :: "raw".toList) := by decide
  exact (step_generic htrim (by decide) rfl rfl rfl rfl).trans
    (stepKV_type (show trim (' ' :: "raw".toList) = "raw".toList from by decide))

theorem step_protocol_line {st : PState} {n : Nat} {pr : List Char} (hpr : trim pr = pr) :
    step st n ("protocol: ".toList ++ pr) = .ok { st with curr.protocol := pr } := by
  by_cases hne : pr = []
  · subst hne
    have htrim : trim ("protocol: ".toList ++ ([] : List Char)) =
        "protocol".toList ++ ':' :: [] := by decide
    exact (step_generic htrim (by decide) rfl rfl rfl rfl).trans
      (stepKV_protocol (show trim ([] : List Char) = [] from rfl))
  · have htrim : trim ("protocol: ".toList ++ pr) = "protocol".toList ++ ':' :: (' ' :: pr) :=
      trim_line (by decide) hpr hne
    exact (step_generic htrim (by decide) rfl rfl rfl rfl).trans
      (stepKV_protocol (trim_space_cons hpr))

theorem step_address_line {st : PState} {n : Nat} {ad : Nat} (had : ad < 2 ^ 32) :
    step st n ("address: ".toList ++ encodeLEUint32Hex ad) =
      .ok { st with curr.address := ad } := by
  have htrim : trim ("address: ".toList ++ encodeLEUint32Hex ad) =
      "address".toList ++ ':' :: (' ' :: encodeLEUint32Hex ad) :=
    trim_line (by decide) (trim_encode ad) (encode_ne_nil ad)
  exact (step_generic htrim (by decide) rfl rfl rfl rfl).trans
    (stepKV_address (trim_space_cons (trim_encode ad)) (leHex_encode had))

theorem step_command_line {st : PState} {n : Nat} {cm : Nat} (hcm : cm < 2 ^ 32) :
    step st n ("command: ".toList ++ encodeLEUint32Hex cm) =
      .ok { st with curr.command := cm } := by
  have htrim : trim ("command: ".toList ++ encodeLEUint32Hex cm) =
      "command".toList ++ ':' :: (' ' :: encodeLEUint32Hex cm) :=
    trim_line (by decide) (trim_encode cm) (encode_ne_nil cm)
  exact (step_generic htrim (by decide) rfl rfl rfl rfl).trans
    (stepKV_command (trim_space_cons (trim_encode cm)) (leHex_encode hcm))

theorem step_frequency_line {st : PState} {n : Nat} {fr : Int} (hfr : Int64Ok fr) :
    step st n ("frequency: ".toList ++ intStr fr) =
      .ok { st with curr.frequency := fr } := by
  have htrim : trim ("frequency: ".toList ++ intStr fr) =
      "frequency".toList ++ ':' :: (' ' :: intStr fr) :=
    trim_line (by decide) (trim_intStr fr) (intStr_ne_nil fr)
  exact (step_generic htrim (by decide) rfl rfl rfl rfl).trans
    (stepKV_frequency (trim_space_cons (trim_intStr fr)) (goAtoi?_intStr hfr))

theorem step_duty_line {st : PState} {n : Nat} {dc : ℚ} (h6 : dc.den ∣ 1000000)
    (hbd : dc.num.natAbs < fBound * dc.den) :
    step st n ("duty_cycle: ".toList ++ formatF6 dc) =
      .ok { st with curr.dutyCycle := GoFloat.finite dc } := by
  have htrim : trim ("duty_cycle: ".toList ++ formatF6 dc) =
      "duty_cycle".toList ++ ':' :: (' ' :: formatF6 dc) :=
    trim_line (by decide) (trim_formatF6 dc) (formatF6_ne_nil dc)
  exact (step_generic htrim (by decide) rfl rfl rfl rfl).trans
    (stepKV_duty (trim_space_cons (trim_formatF6 dc)) (parseFloat?_formatF6 h6 hbd))

theorem step_data_line {st : PState} {n : Nat} {da : List Int}
    (hda : ∀ x ∈ da, Int64Ok x) :
    step st n ("data:".toList ++ da.foldl (fun acc v => acc ++ ' ' :: intStr v) []) =
      .ok { st with curr.data := da } := by
  cases da with
  | nil =>
    have htrim : trim ("data:".toList ++
        ([] : List Int).foldl (fun acc v => acc ++ ' ' :: intStr v) []) =
        "data".toList ++ ':' :: [] := by decide
    exact (step_generic htrim (by decide) rfl rfl rfl rfl).trans
      (stepKV_data (show trim ([] : List Char) = [] from rfl)
        (show (fields ([] : List Char)).mapM goAtoi? = some ([] : List Int) from rfl))
  | cons x0 rest =>
    have hfold : (x0 :: rest).foldl (fun acc v => acc ++ ' ' :: intStr v) [] =
        ' ' :: (intStr x0 ++ (rest.map fun v => ' ' :: intStr v).flatten) := by
      rw [foldl_append_eq (fun v => ' ' :: intStr v) (x0 :: rest) []]
      simp only [List.map_cons, List.flatten_cons, List.nil_append, List.cons_append]
    rw [hfold]
    have htrim : trim ("data:".toList ++
        ' ' :: (intStr x0 ++ (rest.map fun v => ' ' :: intStr v).flatten)) =
        "data".toList ++ ':' ::
          (' ' :: (intStr x0 ++ (rest.map fun v => ' ' :: intStr v).flatten)) := by
      have h0 : trim ("data: ".toList ++
          (intStr x0 ++ (rest.map fun v => ' ' :: intStr v).flatten)) =
          "data: ".toList ++
            (intStr x0 ++ (rest.map fun v => ' ' :: intStr v).flatten) :=
        trim_line (by decide) (trim_dataStr rest x0) (fun h =>
          intStr_ne_nil x0 (List.append_eq_nil.mp h).1)
      exact h0
    exact (step_generic htrim (by decide) rfl rfl rfl rfl).trans
      (stepKV_data (trim_space_cons (trim_dataStr rest x0))
        (by rw [fields_dataStr rest x0]; exact mapM_goAtoi_intStr (x0 :: rest) hda))

end FlipperIR

namespace FlipperIR

/-! ## Block execution -/

theorem runLines_block {s : Signal} (hs : SignalRT s) (st : PState) (n : Nat)
    (hcur : st.curr = {} ∨ st.curr.name ≠ []) :
    runLines st ((blockLines s).enumFrom n) = .ok { flushMid st with curr := s } := by
  obtain ⟨ftv, verv, curv, sigv⟩ := st
  obtain ⟨hwf, hpz, hrz⟩ := hs
  obtain ⟨nm, ty, pr, ad, cm, fr, dc, da⟩ := s
  obtain ⟨hname, hcn, hcp, htype, haddr, hcmd, hfreq, hdata⟩ := hwf
  have hfm : ∃ sig2, flushMid ⟨ftv, verv, curv, sigv⟩ = ⟨ftv, verv, {}, sig2⟩ := by
    rcases hcur with hc | hc
    · exact ⟨sigv, by rw [show curv = { : Signal} from hc]; rfl⟩
    · have he : curv.name.isEmpty = false := by
        cases hene : curv.name with
        | nil => exact absurd hene hc
        | cons a l => rfl
      refine ⟨sigv ++ [curv], ?_⟩
      unfold flushMid
      dsimp only
      rw [he]
      rfl
  obtain ⟨sig2, hfm⟩ := hfm
  rcases htype with ht | ht
  · subst ht
    obtain ⟨hfr0, hdc0, hda0⟩ := hpz rfl
    subst hfr0; subst hdc0; subst hda0
    rw [show blockLines ⟨nm, "parsed".toList, pr, ad, cm, 0, GoFloat.finite 0, []⟩ =
      ['#'] :: ("name: ".toList ++ nm) :: ("type: ".toList ++ "parsed".toList) ::
      ("protocol: ".toList ++ pr) :: ("address: ".toList ++ encodeLEUint32Hex ad) ::
      ("command: ".toList ++ encodeLEUint32Hex cm) :: [] from rfl]
    show runLines ⟨ftv, verv, curv, sigv⟩
      ((n, ['#']) :: (n + 1, "name: ".toList ++ nm) ::
       (n + 2, "type: ".toList ++ "parsed".toList) ::
       (n + 3, "protocol: ".toList ++ pr) ::
       (n + 4, "address: ".toList ++ encodeLEUint32Hex ad) ::
       (n + 5, "command: ".toList ++ encodeLEUint32Hex cm) :: []) = _
    rw [runLines_cons_ok ((step_hash _ n).trans (congrArg Except.ok hfm))]
    rw [runLines_cons_ok (step_name_line hcn.1 hname)]
    rw [runLines_cons_ok step_type_parsed]
    rw [runLines_cons_ok (step_protocol_line hcp.1)]
    rw [runLines_cons_ok (step_address_line haddr)]
    rw [runLines_cons_ok (step_command_line hcmd)]
    rw [hfm]
    rfl
  · subst ht
    obtain ⟨hpr0, had0, hcm0, hden⟩ := hrz rfl
    subst hpr0; subst had0; subst hcm0
    cases dc with
    | posInf => exact (hden : False).elim
    | negInf => exact (hden : False).elim
    | nan => exact (hden : False).elim
    | finite qd =>
      obtain ⟨h6, hbd⟩ := hden
      rw [show blockLines ⟨nm, "raw".toList, [], 0, 0, fr, GoFloat.finite qd, da⟩ =
        ['#'] :: ("name: ".toList ++ nm) :: ("type: ".toList ++ "raw".toList) ::
        ("frequency: ".toList ++ intStr fr) ::
        ("duty_cycle: ".toList ++ formatF6 qd) ::
        ("data:".toList ++ da.foldl (fun acc v => acc ++ ' ' :: intStr v) []) :: []
        from rfl]
      show runLines ⟨ftv, verv, curv, sigv⟩
        ((n, ['#']) :: (n + 1, "name: ".toList ++ nm) ::
         (n + 2, "type: ".toList ++ "raw".toList) ::
         (n + 3, "frequency: ".toList ++ intStr fr) ::
         (n + 4, "duty_cycle: ".toList ++ formatF6 qd) ::
         (n + 5, "data:".toList ++ da.foldl (fun acc v => acc ++ ' ' :: intStr v) []) ::
         []) = _
      rw [runLines_cons_ok ((step_hash _ n).trans (congrArg Except.ok hfm))]
      rw [runLines_cons_ok (step_name_line hcn.1 hname)]
      rw [runLines_cons_ok step_type_raw]
      rw [runLines_cons_ok (step_frequency_line hfreq)]
      rw [runLines_cons_ok (step_duty_line h6 hbd)]
      rw [runLines_cons_ok (step_data_line hdata)]
      rw [hfm]
      rfl

end FlipperIR

namespace FlipperIR

theorem runLines_blank_end (st : PState) (n : Nat) :
    runLines st [(n, ([] : List Char))] = .ok st := by
  simp only [runLines]
  rw [step_blank]

theorem runLines_chain :
    ∀ (sigs : List Signal) (st : PState) (n : Nat),
      (∀ s ∈ sigs, SignalRT s) → (st.curr = {} ∨ st.curr.name ≠ []) →
      runLines st (((sigs.map blockLines).flatten).enumFrom n) = .ok (chain st sigs) := by
  intro sigs
  induction sigs with
  | nil => intro st n _ _; rfl
  | cons s rest ih =>
    intro st n hall hcur
    simp only [List.map_cons, List.flatten_cons]
    rw [enumFrom_split]
    rw [runLines_append_ok (runLines_block (hall s (by simp)) st n hcur)]
    exact ih { flushMid st with curr := s } (n + (blockLines s).length)
      (fun t ht => hall t (by simp [ht])) (Or.inr (hall s (by simp)).1.1)

theorem finish_chain :
    ∀ (sigs : List Signal) (st : PState), (∀ s ∈ sigs, s.name ≠ []) →
      finish (chain st sigs) =
        ⟨st.filetype, st.version,
          (if st.curr.name.isEmpty then st.signals else st.signals ++ [st.curr]) ++ sigs⟩ := by
  intro sigs
  induction sigs with
  | nil =>
    intro st _
    cases he : st.curr.name.isEmpty <;> simp [finish, chain, he]
  | cons s rest ih =>
    intro st h
    show finish (chain { flushMid st with curr := s } rest) = _
    rw [ih _ (fun t ht => h t (by simp [ht]))]
    have hse : s.name.isEmpty = false := by
      cases hh : s.name with
      | nil => exact absurd hh (h s (by simp))
      | cons a l => rfl
    cases he : st.curr.name.isEmpty <;>
      simp [flushMid, he, hse, List.append_assoc]

theorem dataStr_not_nl {da : List Int} {c : Char}
    (hc : c ∈ da.foldl (fun acc v => acc ++ ' ' :: intStr v) []) : ¬ c = '\n' := by
  rw [foldl_append_eq (fun v => ' ' :: intStr v) da []] at hc
  simp only [List.nil_append] at hc
  obtain ⟨piece, hp, hcp⟩ := List.mem_flatten.mp hc
  obtain ⟨v, _, rfl⟩ := List.mem_map.mp hp
  rcases List.mem_cons.mp hcp with rfl | hmem
  · decide
  · exact (intStr_not_ws hmem).2

theorem blockLines_not_nl {s : Signal} (hs : SignalRT s) :
    ∀ l ∈ blockLines s, '\n' ∉ l := by
  intro l hl hnl
  obtain ⟨hwf, hpz, hrz⟩ := hs
  obtain ⟨nm, ty, pr, ad, cm, fr, dc, da⟩ := s
  obtain ⟨hname, hcn, hcp, htype, haddr, hcmd, hfreq, hdata⟩ := hwf
  rcases htype with ht | ht
  · subst ht
    rw [show blockLines ⟨nm, "parsed".toList, pr, ad, cm, fr, dc, da⟩ =
      ['#'] :: ("name: ".toList ++ nm) :: ("type: ".toList ++ "parsed".toList) ::
      ("protocol: ".toList ++ pr) :: ("address: ".toList ++ encodeLEUint32Hex ad) ::
      ("command: ".toList ++ encodeLEUint32Hex cm) :: [] from rfl] at hl
    simp only [List.mem_cons, List.not_mem_nil, or_false] at hl
    rcases hl with rfl | rfl | rfl | rfl | rfl | rfl
    · exact absurd hnl (by decide)
    · rcases List.mem_append.mp hnl with h1 | h1
      · exact absurd h1 (by decide)
      · exact hcn.2 h1
    · exact absurd hnl (by decide)
    · rcases List.mem_append.mp hnl with h1 | h1
      · exact absurd h1 (by decide)
      · exact hcp.2 h1
    · rcases List.mem_append.mp hnl with h1 | h1
      · exact absurd h1 (by decide)
      · exact encode_not_nl h1 rfl
    · rcases List.mem_append.mp hnl with h1 | h1
      · exact absurd h1 (by decide)
      · exact encode_not_nl h1 rfl
  · subst ht
    obtain ⟨-, -, -, hden⟩ := hrz rfl
    cases dc with
    | posInf => exact (hden : False).elim
    | negInf => exact (hden : False).elim
    | nan => exact (hden : False).elim
    | finite qd =>
    rw [show blockLines ⟨nm, "raw".toList, pr, ad, cm, fr, GoFloat.finite qd, da⟩ =
      ['#'] :: ("name: ".toList ++ nm) :: ("type: ".toList ++ "raw".toList) ::
      ("frequency: ".toList ++ intStr fr) ::
      ("duty_cycle: ".toList ++ formatF6 qd) ::
      ("data:".toList ++ da.foldl (fun acc v => acc ++ ' ' :: intStr v) []) :: []
      from rfl] at hl
    simp only [List.mem_cons, List.not_mem_nil, or_false] at hl
    rcases hl with rfl | rfl | rfl | rfl | rfl | rfl
    · exact absurd hnl (by decide)
    · rcases List.mem_append.mp hnl with h1 | h1
      · exact absurd h1 (by decide)
      · exact hcn.2 h1
    · exact absurd hnl (by decide)
    · rcases List.mem_append.mp hnl with h1 | h1
      · exact absurd h1 (by decide)
      · exact (intStr_not_ws h1).2 rfl
    · rcases List.mem_append.mp hnl with h1 | h1
      · exact absurd h1 (by decide)
      · exact (formatF6_not_ws h1).2 rfl
    · rcases List.mem_append.mp hnl with h1 | h1
      · exact absurd h1 (by decide)
      · exact dataStr_not_nl h1 rfl

theorem libLines_not_nl {L : SignalLib} (h : LibRT L) :
    ∀ l ∈ libLines L, '\n' ∉ l := by
  obtain ⟨hft, hver, hsig⟩ := h
  intro l hl
  rw [show libLines L = ("Filetype: ".toList ++ L.filetype) ::
    ("Version: ".toList ++ L.version) :: (L.signals.map blockLines).flatten from rfl] at hl
  simp only [List.mem_cons] at hl
  rcases hl with rfl | rfl | hl
  · intro hm
    rcases List.mem_append.mp hm with h1 | h1
    · exact absurd h1 (by decide)
    · exact hft.2 h1
  · intro hm
    rcases List.mem_append.mp hm with h1 | h1
    · exact absurd h1 (by decide)
    · exact hver.2 h1
  · obtain ⟨bl, hbl, hlbl⟩ := List.mem_flatten.mp hl
    obtain ⟨s, hsmem, rfl⟩ := List.mem_map.mp hbl
    exact blockLines_not_nl (hsig s hsmem) l hlbl

end FlipperIR

namespace FlipperIR

/-- Claim C1 (amended): for every library whose fields are well-formed as
the claim words it AND whose off-kind fields are at their zero values with
a duty cycle that is a finite float64-domain value exactly representable
in six decimal places (the amendment forced by
c1_roundtrip_counterexample, plus the machine-range bound of the float64
field type), Unmarshal after Marshal succeeds and returns the library
itself — same filetype, version, and signal sequence in order. -/
theorem c1_roundtrip_amended {L : SignalLib} (h : LibRT L) :
    Unmarshal ((Marshal L).1) = .ok L := by
  have hlines : ∀ l ∈ libLines L, '\n' ∉ l := libLines_not_nl h
  obtain ⟨ftv, verv, sigs⟩ := L
  obtain ⟨hft, hver, hsig⟩ := h
  rw [Marshal_fst_eq]
  unfold Unmarshal
  rw [split_joinNL hlines]
  rw [show libLines ⟨ftv, verv, sigs⟩ =
    ("Filetype: ".toList ++ ftv) :: ("Version: ".toList ++ verv) ::
    (sigs.map blockLines).flatten from rfl]
  rw [show ((("Filetype: ".toList ++ ftv) :: ("Version: ".toList ++ verv) ::
      (sigs.map blockLines).flatten) ++ [([] : List Char)]).enum =
    (0, "Filetype: ".toList ++ ftv) :: (1, "Version: ".toList ++ verv) ::
    ((sigs.map blockLines).flatten ++ [([] : List Char)]).enumFrom 2 from rfl]
  rw [runLines_cons_ok (step_ft_line hft rfl)]
  rw [runLines_cons_ok (step_ver_line hver rfl)]
  rw [enumFrom_split]
  rw [runLines_append_ok (runLines_chain sigs _ 2 hsig (Or.inl rfl))]
  rw [show List.enumFrom (2 + ((sigs.map blockLines).flatten).length)
      [([] : List Char)] =
    [((2 + ((sigs.map blockLines).flatten).length), ([] : List Char))] from rfl]
  rw [runLines_blank_end]
  show Except.ok (finish (chain
    { { (⟨[], [], {}, []⟩ : PState) with filetype := ftv } with version := verv } sigs)) =
    Except.ok (⟨ftv, verv, sigs⟩ : SignalLib)
  rw [finish_chain sigs _ (fun s hs => (hsig s hs).1.1)]
  rfl

/-- Closed witness for the amended claim C1: the two-signal library libW
(one parsed signal, one raw signal with duty cycle 1/4) satisfies the
amended hypotheses and round-trips. -/
theorem c1_roundtrip_amended_witness :
    LibRT libW ∧ Unmarshal ((Marshal libW).1) = .ok libW :=
  ⟨by decide, c1_roundtrip_amended (by decide)⟩

end FlipperIR
